import Mathlib

/-!
Verification development for the transcript-pro core:
structured JSON extraction (`extractJson`), the SRT subtitle codec
(`parseSRT` / `generateSRT`), the chunked translation orchestrator
(`runTranslation` in `SubtitleTool.tsx`), and the versioned archive store
(`ArchiveService`).

The TypeScript sources are shallowly embedded over `List Char`
(JavaScript strings are modelled as their character sequences; all inputs
of interest are ASCII, so UTF-16 length subtleties do not arise).
JavaScript regular expressions used by the sources are embedded as
deterministic character-level matchers that realise the exact
leftmost-match / greedy / lazy behaviour of each concrete pattern on the
relevant inputs; each embedding carries a comment naming its pattern.
-/

/-! ## Character and list utilities -/

/-- The characters matched by the regexp class `\s` that can occur in the
ASCII inputs handled here (space, tab, LF, CR, vertical tab, form feed);
also the character class removed by JavaScript `String.prototype.trim`. -/
def isJsWs (c : Char) : Bool :=
  c = ' ' || c = '\t' || c = '\n' || c = '\r' || c = '\x0b' || c = '\x0c'

/-- The decimal digit characters (regexp class `\d` / JSON digits). -/
def isDigitChar (c : Char) : Bool :=
  c = '0' || c = '1' || c = '2' || c = '3' || c = '4' ||
  c = '5' || c = '6' || c = '7' || c = '8' || c = '9'

/-- Drop leading JS whitespace. -/
def trimLeft (l : List Char) : List Char := l.dropWhile isJsWs

/-- Drop trailing JS whitespace. -/
def trimRight (l : List Char) : List Char :=
  (l.reverse.dropWhile isJsWs).reverse

/-- Models JavaScript `String.prototype.trim`. -/
def trimList (l : List Char) : List Char := trimRight (trimLeft l)

/-- Models JavaScript `str.split(c)` for a single-character separator:
the list of maximal separator-free chunks (empty chunks included). -/
def splitOnChar (c : Char) : List Char → List (List Char)
  | [] => [[]]
  | x :: xs =>
    if x = c then [] :: splitOnChar c xs
    else
      match splitOnChar c xs with
      | [] => [[x]]
      | h :: t => (x :: h) :: t

/-- Models JavaScript `Array.prototype.join` with a one-character
separator. -/
def joinSep (c : Char) : List (List Char) → List Char
  | [] => []
  | [l] => l
  | l :: ls => l ++ c :: joinSep c ls

/-- Split at the first occurrence of character `c`: returns
`some (before, after)` with `l = before ++ c :: after` and `c ∉ before`,
or `none` when `c` does not occur. -/
def splitAtFirstChar (c : Char) : List Char → Option (List Char × List Char)
  | [] => none
  | x :: xs =>
    if x = c then some ([], xs)
    else (splitAtFirstChar c xs).map (fun p => (x :: p.1, p.2))

/-- Split at the first (leftmost) occurrence of the pattern `pat` as a
contiguous substring: returns `some (before, after)` with
`l = before ++ pat ++ after`, or `none`. -/
def splitAtFirstSub (pat : List Char) : List Char → Option (List Char × List Char)
  | [] => if pat = [] then some ([], []) else none
  | x :: xs =>
    if pat.isPrefixOf (x :: xs) then some ([], (x :: xs).drop pat.length)
    else (splitAtFirstSub pat xs).map (fun p => (x :: p.1, p.2))

/-- Models a global (`/g`) regexp replace of the fixed two-character
pattern `a b` by `repl`: leftmost, non-overlapping, scanning resumes
after each replacement — exactly what `String.prototype.replace` with a
global two-character literal pattern does. -/
def replace2 (a b : Char) (repl : List Char) : List Char → List Char
  | [] => []
  | [x] => [x]
  | x :: y :: rest =>
    if x = a ∧ y = b then repl ++ replace2 a b repl rest
    else x :: replace2 a b repl (y :: rest)

/-- Models JavaScript `String.prototype.replace` with a one-character
string pattern, which replaces only the FIRST occurrence. -/
def replaceFirstChar (c r : Char) : List Char → List Char
  | [] => []
  | x :: xs => if x = c then r :: xs else x :: replaceFirstChar c r xs

/-- The decimal digit character for `d < 10`. -/
def digitChar10 : Nat → Char
  | 0 => '0' | 1 => '1' | 2 => '2' | 3 => '3' | 4 => '4'
  | 5 => '5' | 6 => '6' | 7 => '7' | 8 => '8' | _ => '9'

/-- Fuelled decimal rendering of a natural number (enough fuel always
supplied by `decChars`). -/
def decCharsGo : Nat → Nat → List Char
  | 0, _ => []
  | f + 1, n =>
    if n < 10 then [digitChar10 n]
    else decCharsGo f (n / 10) ++ [digitChar10 (n % 10)]

/-- The decimal rendering of a natural number, as produced by the
JavaScript template interpolation of a number. -/
def decChars (n : Nat) : List Char := decCharsGo (n + 1) n

/-- The apostrophe character (U+0027), written by code point. -/
def squote : Char := Char.ofNat 39

/-- The backtick character (U+0060), written by code point. -/
def btick : Char := Char.ofNat 96

/-! ## Basic lemmas about the utilities -/

theorem mem_trimLeft {l : List Char} {c : Char} (h : c ∈ trimLeft l) : c ∈ l :=
  (List.dropWhile_sublist _).subset h

theorem mem_trimRight {l : List Char} {c : Char} (h : c ∈ trimRight l) : c ∈ l := by
  unfold trimRight at h
  rw [List.mem_reverse] at h
  exact List.mem_reverse.mp ((List.dropWhile_sublist _).subset h)

theorem mem_trimList {l : List Char} {c : Char} (h : c ∈ trimList l) : c ∈ l :=
  mem_trimLeft (mem_trimRight h)

theorem head_dropWhile_not {p : Char → Bool} {l res : List Char} {x : Char}
    (h : l.dropWhile p = x :: res) : p x = false := by
  induction l with
  | nil => simp at h
  | cons a as ih =>
    rw [List.dropWhile_cons] at h
    by_cases hp : p a = true
    · rw [if_pos hp] at h; exact ih h
    · rw [if_neg hp] at h
      cases h
      exact Bool.not_eq_true _ ▸ (by simpa using hp)

theorem trimLeft_head_not_ws {l : List Char} {x : Char} {res : List Char}
    (h : trimLeft l = x :: res) : isJsWs x = false :=
  head_dropWhile_not h

theorem trimRight_getLast_not_ws {l : List Char} {x : Char} {res : List Char}
    (h : trimRight l = res ++ [x]) : isJsWs x = false := by
  unfold trimRight at h
  have : l.reverse.dropWhile isJsWs = x :: res.reverse := by
    have := congrArg List.reverse h
    simpa using this
  exact head_dropWhile_not this

/-- A list whose first and last characters are not whitespace is fixed by
`trimLeft`. -/
theorem trimLeft_eq_self {l : List Char} (h : ∀ x ∈ l.head?, isJsWs x = false) :
    trimLeft l = l := by
  cases l with
  | nil => rfl
  | cons a as =>
    have := h a (by simp)
    unfold trimLeft
    rw [List.dropWhile_cons, if_neg (by simp [this])]

theorem trimRight_eq_self {l : List Char} (h : ∀ x ∈ l.getLast?, isJsWs x = false) :
    trimRight l = l := by
  unfold trimRight
  have : l.reverse.dropWhile isJsWs = l.reverse := by
    apply trimLeft_eq_self
    intro x hx
    rw [List.head?_reverse] at hx
    exact h x hx
  rw [this, List.reverse_reverse]

/-- Characterisation of trim-stability used throughout: a list whose two
ends are not whitespace is its own trim. -/
theorem trimList_eq_self {l : List Char}
    (h1 : ∀ x ∈ l.head?, isJsWs x = false)
    (h2 : ∀ x ∈ l.getLast?, isJsWs x = false) :
    trimList l = l := by
  unfold trimList
  rw [trimLeft_eq_self h1, trimRight_eq_self h2]

/-- Dropping a single trailing newline: trimming `l ++ ['\n']` gives back
`l` when `l` is itself trim-stable at both ends. -/
theorem trimList_append_newline {l : List Char}
    (h1 : ∀ x ∈ l.head?, isJsWs x = false)
    (h2 : ∀ x ∈ l.getLast?, isJsWs x = false)
    (hne : l ≠ []) :
    trimList (l ++ ['\n']) = l := by
  unfold trimList
  have hL : trimLeft (l ++ ['\n']) = l ++ ['\n'] := by
    apply trimLeft_eq_self
    intro x hx
    rw [List.head?_append_of_ne_nil _ hne] at hx
    exact h1 x hx
  rw [hL]
  unfold trimRight
  rw [List.reverse_append]
  simp only [List.reverse_cons, List.reverse_nil, List.nil_append, List.singleton_append,
    List.dropWhile_cons]
  rw [if_pos (by simp [isJsWs])]
  have : l.reverse.dropWhile isJsWs = l.reverse := by
    apply trimLeft_eq_self
    intro x hx
    rw [List.head?_reverse] at hx
    exact h2 x hx
  rw [this, List.reverse_reverse]

/-! ## JSON values and `JSON.parse`

JSON numbers are represented exactly as `mantissa * 10 ^ exp10`
(`Json.num mantissa exp10`); the claims under study only ever depend on
whether a parsed number is zero (JavaScript falsiness), which this
representation decides exactly. -/

inductive Json where
  | null
  | bool (b : Bool)
  | num (mantissa : Int) (exp10 : Int)
  | str (s : List Char)
  | arr (xs : List Json)
  | obj (fields : List (List Char × Json))

/-- JavaScript truthiness of a JSON value (`NaN` cannot arise from
`JSON.parse`). -/
def Json.truthy : Json → Bool
  | .null => false
  | .bool b => b
  | .num m _ => !(m = 0)
  | .str s => !s.isEmpty
  | .arr _ => true
  | .obj _ => true

/-- JSON whitespace (the only characters `JSON.parse` skips between
tokens). -/
def isJsonWs (c : Char) : Bool :=
  c = ' ' || c = '\t' || c = '\n' || c = '\r'

def skipJsonWs (l : List Char) : List Char := l.dropWhile isJsonWs

/-- The value of a single-character JSON escape (`\"  \\  \/  \b  \f  \n
\r  \t`); anything else — in particular an escaped apostrophe — is
invalid. -/
def unescapeChar (c : Char) : Option Char :=
  if c = '"' then some '"'
  else if c = '\\' then some '\\'
  else if c = '/' then some '/'
  else if c = 'b' then some '\x08'
  else if c = 'f' then some '\x0c'
  else if c = 'n' then some '\n'
  else if c = 'r' then some '\r'
  else if c = 't' then some '\t'
  else none

def hexVal (c : Char) : Option Nat :=
  if c = '0' then some 0 else if c = '1' then some 1
  else if c = '2' then some 2 else if c = '3' then some 3
  else if c = '4' then some 4 else if c = '5' then some 5
  else if c = '6' then some 6 else if c = '7' then some 7
  else if c = '8' then some 8 else if c = '9' then some 9
  else if c = 'a' ∨ c = 'A' then some 10 else if c = 'b' ∨ c = 'B' then some 11
  else if c = 'c' ∨ c = 'C' then some 12 else if c = 'd' ∨ c = 'D' then some 13
  else if c = 'e' ∨ c = 'E' then some 14 else if c = 'f' ∨ c = 'F' then some 15
  else none

/-- Body of a JSON string literal, after the opening quote: returns the
decoded content and the remainder after the closing quote.  Raw control
characters are rejected, as `JSON.parse` does. -/
def parseStringBody : Nat → List Char → Option (List Char × List Char)
  | 0, _ => none
  | f + 1, cs =>
    match cs with
    | [] => none
    | c :: rest =>
      if c = '"' then some ([], rest)
      else if c = '\\' then
        match rest with
        | [] => none
        | e :: rest2 =>
          match unescapeChar e with
          | some c2 => (parseStringBody f rest2).map (fun p => (c2 :: p.1, p.2))
          | none =>
            if e = 'u' then
              match rest2 with
              | h1 :: h2 :: h3 :: h4 :: rest3 =>
                match hexVal h1, hexVal h2, hexVal h3, hexVal h4 with
                | some a, some b, some c3, some d =>
                  (parseStringBody f rest3).map
                    (fun p => (Char.ofNat (((a * 16 + b) * 16 + c3) * 16 + d) :: p.1, p.2))
                | _, _, _, _ => none
              | _ => none
            else none
      else if c.toNat < 32 then none
      else (parseStringBody f rest).map (fun p => (c :: p.1, p.2))

def digitVal : Char → Nat
  | '0' => 0 | '1' => 1 | '2' => 2 | '3' => 3 | '4' => 4
  | '5' => 5 | '6' => 6 | '7' => 7 | '8' => 8 | _ => 9

def digitsToNat (ds : List Char) : Nat :=
  ds.foldl (fun a c => 10 * a + digitVal c) 0

/-- A JSON number literal starting at `cs` (first character is `-` or a
digit): grammar `-? (0 | [1-9][0-9]*) (\. [0-9]+)? ([eE][+-]?[0-9]+)?`,
evaluated exactly as `mantissa * 10 ^ exp10`. -/
def parseNumberChars (cs : List Char) : Option (Json × List Char) :=
  let p1 : Bool × List Char :=
    match cs with
    | '-' :: r => (true, r)
    | _ => (false, cs)
  let neg := p1.1
  let cs1 := p1.2
  let ip : Option (List Char × List Char) :=
    match cs1 with
    | '0' :: r => some (['0'], r)
    | c :: _ =>
      if isDigitChar c then
        some (cs1.takeWhile isDigitChar, cs1.dropWhile isDigitChar)
      else none
    | [] => none
  match ip with
  | none => none
  | some (intDs, r1) =>
    let fr : Option (List Char × List Char) :=
      match r1 with
      | '.' :: r2 =>
        let ds := r2.takeWhile isDigitChar
        if ds.isEmpty then none else some (ds, r2.dropWhile isDigitChar)
      | _ => some ([], r1)
    match fr with
    | none => none
    | some (fracDs, r3) =>
      let ex : Option (Int × List Char) :=
        match r3 with
        | c :: r4 =>
          if c = 'e' ∨ c = 'E' then
            let p2 : Bool × List Char :=
              match r4 with
              | '-' :: r5 => (true, r5)
              | '+' :: r5 => (false, r5)
              | _ => (false, r4)
            let ds := p2.2.takeWhile isDigitChar
            if ds.isEmpty then none
            else
              some ((if p2.1 then -(digitsToNat ds : Int) else (digitsToNat ds : Int)),
                p2.2.dropWhile isDigitChar)
          else some (0, r3)
        | [] => some (0, r3)
      match ex with
      | none => none
      | some (e, r6) =>
        let mAbs : Nat := digitsToNat (intDs ++ fracDs)
        let m : Int := if neg then -(mAbs : Int) else (mAbs : Int)
        some (Json.num m (e - fracDs.length), r6)

/-- Parsing modes of the single fuelled JSON parser (kept in one function
so that it is structurally recursive and hence kernel-evaluable). -/
inductive JMode where
  | value
  | arrElems
  | objMembers

inductive JRes where
  | v (j : Json)
  | vs (js : List Json)
  | ms (fields : List (List Char × Json))

/-- The recursive core of `JSON.parse`.  In `value` mode the input starts
at a value (no leading whitespace); `arrElems` / `objMembers` parse the
element list of a non-empty array / object. -/
def parseJ : Nat → JMode → List Char → Option (JRes × List Char)
  | 0, _, _ => none
  | f + 1, .value, cs =>
    match cs with
    | [] => none
    | c :: rest =>
      if c = 't' then
        if ['r', 'u', 'e'].isPrefixOf rest then some (.v (.bool true), rest.drop 3) else none
      else if c = 'f' then
        if ['a', 'l', 's', 'e'].isPrefixOf rest then some (.v (.bool false), rest.drop 4) else none
      else if c = 'n' then
        if ['u', 'l', 'l'].isPrefixOf rest then some (.v .null, rest.drop 3) else none
      else if c = '"' then
        (parseStringBody f rest).map (fun p => (.v (.str p.1), p.2))
      else if c = '[' then
        match skipJsonWs rest with
        | ']' :: r2 => some (.v (.arr []), r2)
        | r1 =>
          match parseJ f .arrElems r1 with
          | some (.vs js, r2) => some (.v (.arr js), r2)
          | _ => none
      else if c = '{' then
        match skipJsonWs rest with
        | '}' :: r2 => some (.v (.obj []), r2)
        | r1 =>
          match parseJ f .objMembers r1 with
          | some (.ms fs, r2) => some (.v (.obj fs), r2)
          | _ => none
      else if c = '-' ∨ isDigitChar c then
        (parseNumberChars cs).map (fun p => (.v p.1, p.2))
      else none
  | f + 1, .arrElems, cs =>
    match parseJ f .value cs with
    | some (.v j, rest) =>
      (match skipJsonWs rest with
       | ',' :: r2 =>
         match parseJ f .arrElems (skipJsonWs r2) with
         | some (.vs js, r3) => some (.vs (j :: js), r3)
         | _ => none
       | ']' :: r2 => some (.vs [j], r2)
       | _ => none)
    | _ => none
  | f + 1, .objMembers, cs =>
    match cs with
    | '"' :: r1 =>
      match parseStringBody f r1 with
      | some (key, r2) =>
        (match skipJsonWs r2 with
         | ':' :: r3 =>
           match parseJ f .value (skipJsonWs r3) with
           | some (.v j, r4) =>
             (match skipJsonWs r4 with
              | ',' :: r5 =>
                (match parseJ f .objMembers (skipJsonWs r5) with
                 | some (.ms fs, r6) => some (.ms ((key, j) :: fs), r6)
                 | _ => none)
              | '}' :: r5 => some (.ms [(key, j)], r5)
              | _ => none)
           | _ => none
         | _ => none)
      | none => none
    | _ => none

/-- Models `JSON.parse` as a total function: `some v` for a successful
parse, `none` where `JSON.parse` would throw. -/
def jsonParse (cs : List Char) : Option Json :=
  match parseJ (2 * cs.length + 2) .value (skipJsonWs cs) with
  | some (.v j, rest) => if skipJsonWs rest = [] then some j else none
  | _ => none

/-! ## The structured extractor (`extractJson`, `src/unnamed/part_000` 18–78)

`extractJson` is embedded together with the list of strings it passes to
`JSON.parse`, in order (`ExtractTrace.attempts`), and with the flag
recording whether the outer `catch` fired and logged the diagnostic
snippet (`ExtractTrace.caughtLog`).  JavaScript's `null` return value is
represented by `Json.null`: the function returns `null` both on total
failure and when a parse legitimately produces JSON `null`, and callers
cannot tell these apart. -/

/-- First index of a character, leftmost (JS `String.prototype.indexOf`,
with `none` for `-1`). -/
def firstIdxOf (c : Char) : List Char → Option Nat
  | [] => none
  | x :: xs => if x = c then some 0 else (firstIdxOf c xs).map (· + 1)

/-- Last index of a character (JS `String.prototype.lastIndexOf`, with
`none` for `-1`). -/
def lastIdxOf (c : Char) (l : List Char) : Option Nat :=
  (firstIdxOf c l.reverse).map (fun i => l.length - 1 - i)

/-- Models the first match of `/```(?:json)?\s*([\s\S]*?)\s*```/` against
`cleaned` and returns capture group 1: the text between the first triple
backtick (with an immediately following `json` tag consumed) and the
next triple backtick.  The two `\s*` of the pattern absorb surrounding
whitespace greedily (left) / by group laziness (right), so the group
equals the trim of the delimited text. -/
def fenceGroup (cleaned : List Char) : Option (List Char) :=
  match splitAtFirstSub [btick, btick, btick] cleaned with
  | none => none
  | some (_, rest) =>
    let rest2 := if ['j', 's', 'o', 'n'].isPrefixOf rest then rest.drop 4 else rest
    match splitAtFirstSub [btick, btick, btick] rest2 with
    | none => none
    | some (between, _) => some (trimList between)

/-- Lines 36–53 of `extractJson`: the bracketed candidate substring, or
`[]` (the code's `""`) when none is selected.  `substring(i, j + 1)`
becomes `drop i` / `take (j + 1 - i)`. -/
def bracketCandidate (cleaned : List Char) : List Char :=
  let fb := firstIdxOf '{' cleaned
  let lb := lastIdxOf '}' cleaned
  let fk := firstIdxOf '[' cleaned
  let lk := lastIdxOf ']' cleaned
  let braceCase : Nat → List Char := fun ib =>
    match lb with
    | some jb => if ib < jb then (cleaned.drop ib).take (jb + 1 - ib) else []
    | none => []
  let bracketCase : Nat → List Char := fun ik =>
    match lk with
    | some jk => if ik < jk then (cleaned.drop ik).take (jk + 1 - ik) else []
    | none => []
  match fb, fk with
  | some ib, none => braceCase ib
  | some ib, some ik => if ib < ik then braceCase ib else bracketCase ik
  | none, some ik => bracketCase ik
  | none, none => []

/-- Lines 58–59: `candidate.replace(/\\n/g, "\\n").replace(/\\'/g, "'")`.
The first replace rewrites every backslash-`n` pair to itself (it is an
identity, kept for faithfulness); the second rewrites every
backslash-apostrophe pair to a bare apostrophe. -/
def sanitizeCandidate (c : List Char) : List Char :=
  replace2 '\\' squote [squote] (replace2 '\\' 'n' ['\\', 'n'] c)

/-- Line 74: the diagnostic snippet logged on total failure —
`text.length > 100 ? text.substring(0, 100) + "..." : text`. -/
def snippetOf (t : List Char) : List Char :=
  if t.length > 100 then t.take 100 ++ ['.', '.', '.'] else t

/-- The observable behaviour of one `extractJson` run: the returned value
(`Json.null` for a JavaScript `null` return), whether the outer `catch`
fired (logging the snippet), and the strings passed to `JSON.parse` in
order. -/
structure ExtractTrace where
  value : Json
  caughtLog : Bool
  attempts : List (List Char)


/-- Line 72 (and the surrounding `try`/`catch`): the last-ditch parse of
the whole trimmed input; on failure the outer catch returns `null` and
logs. -/
def finalStage (cleaned : List Char) : ExtractTrace :=
  match jsonParse cleaned with
  | some v => ⟨v, false, [cleaned]⟩
  | none => ⟨Json.null, true, [cleaned]⟩

/-- Lines 36–69: the bracket-candidate stage (falling through to
`finalStage` when no candidate is selected or both candidate parses
fail).  Note the code parses the SANITIZED candidate first and retries
the original only afterwards. -/
def candidateStage (cleaned : List Char) : ExtractTrace :=
  let cand := bracketCandidate cleaned
  if cand.isEmpty then finalStage cleaned
  else
    match jsonParse (sanitizeCandidate cand) with
    | some v => ⟨v, false, [sanitizeCandidate cand]⟩
    | none =>
      match jsonParse cand with
      | some v => ⟨v, false, [sanitizeCandidate cand, cand]⟩
      | none =>
        let f := finalStage cleaned
        ⟨f.value, f.caughtLog, sanitizeCandidate cand :: cand :: f.attempts⟩

/-- The whole `extractJson` (lines 18–78).  The markdown-fence stage
returns its parsed value only when that value is truthy (`if (parsed)
return parsed;`); otherwise control falls through to `candidateStage`. -/
def extractRun (text : String) : ExtractTrace :=
  if text.toList.isEmpty then ⟨Json.null, false, []⟩
  else
    let cleaned := trimList text.toList
    match fenceGroup cleaned with
    | some g =>
      if g.isEmpty then candidateStage cleaned
      else
        match jsonParse (trimList g) with
        | some p =>
          if p.truthy then ⟨p, false, [trimList g]⟩
          else
            let t := candidateStage cleaned
            ⟨t.value, t.caughtLog, trimList g :: t.attempts⟩
        | none =>
          let t := candidateStage cleaned
          ⟨t.value, t.caughtLog, trimList g :: t.attempts⟩
    | none => candidateStage cleaned

/-- The value `extractJson` returns (`Json.null` standing for the
JavaScript `null` return). -/
def extractJson (text : String) : Json := (extractRun text).value

/-- The diagnostic snippet `extractJson` logs, when the outer catch
fires. -/
def extractJsonLog (text : String) : Option String :=
  if (extractRun text).caughtLog then some (String.mk (snippetOf text.toList)) else none

/-- The strings `extractJson` passes to `JSON.parse`, in call order. -/
def extractAttempts (text : String) : List (List Char) := (extractRun text).attempts

/-- The nullable-input wrapper: a JavaScript `null` argument is falsy, so
`extractJson(null)` returns `null` via the `if (!text)` guard. -/
def extractJsonNullable : Option String → Json
  | none => Json.null
  | some t => extractJson t

/-! ## The subtitle codec (`parseSRT` / `generateSRT`, `src/unnamed/part_000` 80–120) -/

structure TranscriptionSegment where
  startTime : String
  endTime : String
  text : String
  speaker : Option String
  deriving DecidableEq

/-- A line consisting solely of whitespace (the lines consumed by the
block separator `/\n\s*\n/`). -/
def isBlankLine (l : List Char) : Bool := l.all isJsWs

/-- Split a line list at the blank lines (keeping empty runs). -/
def splitOnBlank : List (List Char) → List (List (List Char))
  | [] => [[]]
  | l :: ls =>
    if isBlankLine l then [] :: splitOnBlank ls
    else
      match splitOnBlank ls with
      | [] => [[l]]
      | h :: t => (l :: h) :: t

/-- Models `data.trim().split(/\n\s*\n/)` followed by the per-block
`block.split('\n')`: on a trimmed input the regexp split yields exactly
the maximal runs of non-blank lines (every blank-line run sits between
two newlines there, and the greedy/backtracking match consumes the whole
run), so the blocks are those runs, here kept as line lists. -/
def blocksOf (lns : List (List Char)) : List (List (List Char)) :=
  (splitOnBlank lns).filter (fun b => !b.isEmpty)

/-- `l.includes('-->')`. -/
def hasArrow : List Char → Bool
  | [] => false
  | c :: rest => (c == '-' && ['-', '>'].isPrefixOf rest) || hasArrow rest

/-- `lines.findIndex(l => l.includes('-->'))`, also returning the found
line. -/
def findTimeLine : List (List Char) → Option (Nat × List Char)
  | [] => none
  | l :: ls =>
    if hasArrow l then some (0, l)
    else (findTimeLine ls).map (fun p => (p.1 + 1, p.2))

/-- One timestamp of the time-line pattern:
`\d{2}:\d{2}:\d{2}[,. ]\d{3}` (returns the 12 matched characters and the
remainder). -/
def tsAt : List Char → Option (List Char × List Char)
  | a :: b :: ':' :: c :: d :: ':' :: e :: f :: s :: g :: h :: i :: rest =>
    if isDigitChar a && isDigitChar b && isDigitChar c && isDigitChar d &&
        isDigitChar e && isDigitChar f && isDigitChar g && isDigitChar h &&
        isDigitChar i && (s = ',' || s = '.' || s = ' ') then
      some ([a, b, ':', c, d, ':', e, f, s, g, h, i], rest)
    else none
  | _ => none

/-- The full time-line pattern
`(\d{2}:\d{2}:\d{2}[,. ]\d{3}) --> (\d{2}:\d{2}:\d{2}[,. ]\d{3})`
anchored at the start of `l`, returning the two capture groups. -/
def tryTimeAt (l : List Char) : Option (List Char × List Char) :=
  match tsAt l with
  | none => none
  | some (t1, r1) =>
    match r1 with
    | ' ' :: '-' :: '-' :: '>' :: ' ' :: r2 =>
      match tsAt r2 with
      | none => none
      | some (t2, _) => some (t1, t2)
    | _ => none

/-- Leftmost (unanchored) match of the time-line pattern, as
`String.prototype.match` performs it. -/
def findTimePair : List Char → Option (List Char × List Char)
  | [] => none
  | c :: rest =>
    match tryTimeAt (c :: rest) with
    | some r => some r
    | none => findTimePair rest

/-- Models `rawText.match(/^\[([^\]]+)\]:\s*(.*)$/)` (with the
`.trim()` the caller applies to both groups): group 1 is the non-empty
text before the first `]`, which must be followed by `:`. -/
def bracketMatch (raw : List Char) : Option (List Char × List Char) :=
  match raw with
  | '[' :: rest =>
    match splitAtFirstChar ']' rest with
    | some (grp, after) =>
      if grp.isEmpty then none
      else
        match after with
        | ':' :: r2 => some (trimList grp, trimList (r2.dropWhile isJsWs))
        | _ => none
    | none => none
  | _ => none

/-- Models `rawText.match(/^([^:]+):\s*(.*)$/)` (with the caller's
`.trim()` on both groups): group 1 is the non-empty text before the
first `:`. -/
def bareMatch (raw : List Char) : Option (List Char × List Char) :=
  match splitAtFirstChar ':' raw with
  | some (grp, after) =>
    if grp.isEmpty then none
    else some (trimList grp, trimList (after.dropWhile isJsWs))
  | none => none

/-- `rawText.match(bracketed) || rawText.match(bare)`. -/
def speakerSplit (raw : List Char) : Option (List Char × List Char) :=
  match bracketMatch raw with
  | some r => some r
  | none => bareMatch raw

/-- One block of `parseSRT` (lines 85–108): at least 3 lines, a time
line containing `-->` matching the timestamp pattern, the remaining
lines joined by single spaces as the raw text, and the speaker split
applied to it.  Returns `none` for the silently skipped blocks. -/
def parseBlock (block : List (List Char)) : Option TranscriptionSegment :=
  let lines := block.map trimList
  if lines.length ≥ 3 then
    match findTimeLine lines with
    | some (ti, timeLine) =>
      match findTimePair timeLine with
      | some (t1, t2) =>
        let rawText := trimList (joinSep ' ' (lines.drop (ti + 1)))
        some
          (match speakerSplit rawText with
           | some (sp, tx) =>
             { startTime := String.mk (replaceFirstChar ',' '.' t1),
               endTime := String.mk (replaceFirstChar ',' '.' t2),
               text := String.mk tx,
               speaker := some (String.mk sp) }
           | none =>
             { startTime := String.mk (replaceFirstChar ',' '.' t1),
               endTime := String.mk (replaceFirstChar ',' '.' t2),
               text := String.mk rawText,
               speaker := none })
      | none => none
    | none => none
  else none

/-- `parseSRT` (lines 80–113). -/
def parseSRT (data : String) : List TranscriptionSegment :=
  (blocksOf (splitOnChar '\n' (trimList data.toList))).filterMap parseBlock

/-- Truthiness of `seg.speaker` (absent or empty is falsy). -/
def segSpeakerTruthy (s : TranscriptionSegment) : Bool :=
  match s.speaker with
  | some sp => !sp.toList.isEmpty
  | none => false

def segSpeakerStr (s : TranscriptionSegment) : String :=
  match s.speaker with
  | some sp => sp
  | none => ""

/-- The `${textPrefix}${seg.text}` line of a generated block. -/
def textLineChars (flag : Bool) (s : TranscriptionSegment) : List Char :=
  (if flag && segSpeakerTruthy s then
    '[' :: (segSpeakerStr s).toList ++ [']', ':', ' ']
   else []) ++ s.text.toList

/-- The `start --> end` line of a generated block
(`seg.startTime.replace('.', ',')` replaces only the first `.`). -/
def timeLineChars (s : TranscriptionSegment) : List Char :=
  replaceFirstChar '.' ',' s.startTime.toList ++ [' ', '-', '-', '>', ' '] ++
    replaceFirstChar '.' ',' s.endTime.toList

/-- One generated block
`${index + 1}\n${start --> end}\n${textPrefix}${text}\n` for 1-based
index `n`. -/
def blockChars (n : Nat) (flag : Bool) (s : TranscriptionSegment) : List Char :=
  decChars n ++ '\n' :: timeLineChars s ++ '\n' :: textLineChars flag s ++ ['\n']

/-- `generateSRT` (lines 115–120): the blocks joined by `'\n'`. -/
def generateSRT (segs : List TranscriptionSegment) (includeSpeakers : Bool) : String :=
  String.mk (joinSep '\n' (segs.enum.map (fun p => blockChars (p.1 + 1) includeSpeakers p.2)))

/-! ## The batch translation orchestrator
(`runTranslation`, `src/components/tools/SubtitleTool.tsx` 114–138)

The external call `await translateSegments(chunk, targetLang, tone)`
(`src/unnamed/part_001` 662–697) is an opaque asynchronous collaborator:
it is modelled by an `oracle` argument, `Except.error e` standing for a
rejected promise with message `e` and `Except.ok out` for a resolved
segment list.  The embedding records, besides the result (`Except.ok`
corresponds to `setTranslatedSegments(results)`, `Except.error` to the
`catch` branch `setError("Translation failed: " + err.message)` with the
results never published), the `Math.round` progress signals emitted and
the chunks actually passed to the external call, in order. -/

/-- Fuelled core of the chunking loop
`for (let i = 0; i < n; i += chunkSize) chunks.push(slice(i, i + 12))`. -/
def chunksGo {α : Type} : Nat → List α → List (List α)
  | 0, _ => []
  | f + 1, l => if l.isEmpty then [] else l.take 12 :: chunksGo f (l.drop 12)

/-- The chunk partition with `chunkSize = 12` (line 119–123). -/
def chunks12 {α : Type} (l : List α) : List (List α) := chunksGo l.length l

/-- `Math.round(((i + 1) / chunks.length) * 100)` for `done = i + 1`
positive chunks: with exact rational arithmetic,
`round(x) = ⌊x + 1/2⌋`, so the value is
`⌊(200 * done + total) / (2 * total)⌋`, a natural-number division.  (The
double-precision computation the code performs agrees with the exact one
on every input arising here.) -/
def progressPct (done total : Nat) : Nat := (200 * done + total) / (2 * total)

instance exceptDecEq {ε α : Type} [DecidableEq ε] [DecidableEq α] :
    DecidableEq (Except ε α) := fun a b =>
  match a, b with
  | .error e, .error f => decidable_of_iff (e = f) (by simp)
  | .ok x, .ok y => decidable_of_iff (x = y) (by simp)
  | .error _, .ok _ => isFalse (fun h => Except.noConfusion h)
  | .ok _, .error _ => isFalse (fun h => Except.noConfusion h)

structure RunOutcome where
  result : Except String (List TranscriptionSegment)
  progress : List Nat
  calls : List (List TranscriptionSegment)
  deriving DecidableEq

/-- The sequential chunk loop (lines 125–130): on a rejected chunk call
the loop aborts, no further chunks are invoked, and the caller surfaces
`"Translation failed: " + err.message`. -/
def runLoop (oracle : List TranscriptionSegment → Except String (List TranscriptionSegment))
    (total : Nat) :
    List (List TranscriptionSegment) → Nat → List TranscriptionSegment → RunOutcome
  | [], _, acc => ⟨.ok acc, [], []⟩
  | c :: rest, i, acc =>
    match oracle c with
    | .error e => ⟨.error ("Translation failed: " ++ e), [], [c]⟩
    | .ok out =>
      let r := runLoop oracle total rest (i + 1) (acc ++ out)
      ⟨r.result, progressPct (i + 1) total :: r.progress, c :: r.calls⟩

/-- `runTranslation` (lines 114–138). -/
def runTranslation
    (oracle : List TranscriptionSegment → Except String (List TranscriptionSegment))
    (sourceSegments : List TranscriptionSegment) : RunOutcome :=
  runLoop oracle (chunks12 sourceSegments).length (chunks12 sourceSegments) 0 []

/-! ## The archive store (`ArchiveService`, `src/unnamed/part_002` 1–104)

The `localStorage`-backed state (entry collection plus per-prefix
counters) is modelled as an explicit `ArchiveState` threaded through the
operations; `crypto.randomUUID()` and `Date.now()` are inputs of
`saveAsset` supplied by the environment.  `content` and `metadata` are
opaque payloads, modelled as `String` / `Option String`. -/

inductive ArchiveType where
  | Story | Recap | Transcript | Audiobook | Translation
  | Voice | Thumbnail | Content | Video
  deriving DecidableEq

/-- The `TYPE_PREFIX` record (lines 10–20). -/
def typePrefix : ArchiveType → String
  | .Story => "ST"
  | .Recap => "VR"
  | .Transcript => "TR"
  | .Audiobook => "AR"
  | .Translation => "TL"
  | .Voice => "VO"
  | .Thumbnail => "TN"
  | .Content => "CT"
  | .Video => "VD"

structure ArchiveEntry where
  id : String
  fileId : String
  type : ArchiveType
  title : String
  content : String
  language : String
  toolId : String
  timestamp : Int
  version : Nat
  metadata : Option String
  deriving DecidableEq

structure ArchiveState where
  archive : List ArchiveEntry
  counters : String → Nat

/-- The store before any save, and after `clearAll`: no entries, all
counters zero (the code's missing-key default, identical to its initial
counter object). -/
def initialArchiveState : ArchiveState := ⟨[], fun _ => 0⟩

structure SaveParams where
  type : ArchiveType
  title : String
  content : String
  language : String
  toolId : String
  metadata : Option String
  deriving DecidableEq

/-- `String(n).padStart(3, '0')`. -/
def padStart3 (s : List Char) : List Char := List.replicate (3 - s.length) '0' ++ s

/-- `generateFileId` (lines 51–57): bumps the per-prefix counter and
renders `<PREFIX>-<counter padded to 3 digits>`; returns the id and the
updated counters. -/
def generateFileId (counters : String → Nat) (t : ArchiveType) : String × (String → Nat) :=
  let pfx := typePrefix t
  let n := counters pfx + 1
  (pfx ++ "-" ++ String.mk (padStart3 (decChars n)),
   fun k => if k = pfx then n else counters k)

/-- `saveAsset` (lines 59–89): version = 1 + number of stored entries
with the same title and type, insertion at the head, truncation to 500
(`archive.slice(0, 500)`). -/
def saveAsset (s : ArchiveState) (p : SaveParams) (newId : String) (now : Int) :
    ArchiveEntry × ArchiveState :=
  let previousVersions := s.archive.filter (fun a => a.title == p.title && a.type == p.type)
  let version := previousVersions.length + 1
  let fid := generateFileId s.counters p.type
  let entry : ArchiveEntry :=
    { id := newId, fileId := fid.1, type := p.type, title := p.title,
      content := p.content, language := p.language, toolId := p.toolId,
      timestamp := now, version := version, metadata := p.metadata }
  (entry, { archive := (entry :: s.archive).take 500, counters := fid.2 })

/-- `listAll` (lines 91–93). -/
def listAll (s : ArchiveState) : List ArchiveEntry := s.archive

/-- `deleteAsset` (lines 95–98). -/
def deleteAsset (s : ArchiveState) (i : String) : ArchiveState :=
  { s with archive := s.archive.filter (fun a => !(a.id == i)) }

/-- A sequence of store operations, for the retention/ordering
invariants. -/
inductive ArchiveOp where
  | save (p : SaveParams) (newId : String) (now : Int)
  | del (i : String)

def applyOp (s : ArchiveState) : ArchiveOp → ArchiveState
  | .save p u t => (saveAsset s p u t).2
  | .del i => deleteAsset s i

def applyOps (ops : List ArchiveOp) (s : ArchiveState) : ArchiveState :=
  ops.foldl applyOp s

/-- `n` successive saves of the same parameters from the empty store
(ids and timestamps supplied in sequence). -/
def iterSaves (p : SaveParams) : Nat → ArchiveState
  | 0 => initialArchiveState
  | n + 1 => (saveAsset (iterSaves p n) p (String.mk (decChars n)) n).2

/-! ## Orchestrator lemmas -/

theorem chunksGo_nil {α : Type} : ∀ f : Nat, chunksGo (α := α) f [] = [] := by
  intro f
  cases f <;> rfl

theorem chunksGo_congr {α : Type} :
    ∀ (f g : Nat) (l : List α), l.length ≤ f → l.length ≤ g → chunksGo f l = chunksGo g l := by
  intro f
  induction f with
  | zero =>
    intro g l hf _
    have : l = [] := List.length_eq_zero.mp (Nat.le_zero.mp hf)
    subst this
    rw [chunksGo_nil, chunksGo_nil]
  | succ f ih =>
    intro g l hf hg
    cases l with
    | nil => rw [chunksGo_nil, chunksGo_nil]
    | cons x xs =>
      cases g with
      | zero => simp at hg
      | succ g =>
        show (if (x :: xs).isEmpty then _ else _) = (if (x :: xs).isEmpty then _ else _)
        simp only [List.isEmpty_cons, if_neg]
        have hlen : ((x :: xs).drop 12).length ≤ f := by
          simp only [List.length_drop, List.length_cons] at *
          omega
        have hlen2 : ((x :: xs).drop 12).length ≤ g := by
          simp only [List.length_drop, List.length_cons] at *
          omega
        rw [ih g _ hlen hlen2]

theorem chunks12_cons {α : Type} (x : α) (xs : List α) :
    chunks12 (x :: xs) = (x :: xs).take 12 :: chunks12 ((x :: xs).drop 12) := by
  have h1 : chunks12 (x :: xs)
      = (x :: xs).take 12 :: chunksGo xs.length ((x :: xs).drop 12) := rfl
  rw [h1, chunksGo_congr xs.length ((x :: xs).drop 12).length ((x :: xs).drop 12)
    (by simp only [List.length_drop, List.length_cons]; omega) (Nat.le_refl _)]
  rfl

theorem chunks12_join {α : Type} (l : List α) : (chunks12 l).flatten = l := by
  have key : ∀ (n : Nat) (l : List α), l.length ≤ n → (chunks12 l).flatten = l := by
    intro n
    induction n with
    | zero =>
      intro l h
      have : l = [] := List.length_eq_zero.mp (Nat.le_zero.mp h)
      subst this
      rfl
    | succ n ih =>
      intro l h
      cases l with
      | nil => rfl
      | cons x xs =>
        rw [chunks12_cons, List.flatten_cons,
          ih ((x :: xs).drop 12) (by simp at h ⊢; omega), List.take_append_drop]
  exact key l.length l (Nat.le_refl _)

theorem forall₂_append_pair {α β : Type} {R : α → β → Prop} :
    ∀ {l1 l3 : List α} {l2 l4 : List β},
      List.Forall₂ R l1 l2 → List.Forall₂ R l3 l4 → List.Forall₂ R (l1 ++ l3) (l2 ++ l4) := by
  intro l1 l3 l2 l4 h1 h2
  induction h1 with
  | nil => simpa using h2
  | cons hab hrest ih => exact List.Forall₂.cons hab ih

theorem forall₂_join {α β : Type} {R : α → β → Prop} :
    ∀ {L1 : List (List α)} {L2 : List (List β)},
      List.Forall₂ (List.Forall₂ R) L1 L2 → List.Forall₂ R L1.flatten L2.flatten := by
  intro L1 L2 h
  induction h with
  | nil => exact List.Forall₂.nil
  | cons hab hrest ih => exact forall₂_append_pair hab ih

theorem exists_forall₂_of_forall {α β : Type} {P : α → β → Prop} :
    ∀ {l : List α}, (∀ c ∈ l, ∃ o, P c o) → ∃ outs, List.Forall₂ P l outs := by
  intro l
  induction l with
  | nil => exact fun _ => ⟨[], List.Forall₂.nil⟩
  | cons c cs ih =>
    intro h
    obtain ⟨o, ho⟩ := h c (List.mem_cons_self _ _)
    obtain ⟨outs, houts⟩ := ih (fun x hx => h x (List.mem_cons_of_mem _ hx))
    exact ⟨o :: outs, List.Forall₂.cons ho houts⟩

theorem runLoop_ok (oracle : List TranscriptionSegment → Except String (List TranscriptionSegment))
    (total : Nat) {chunks : List (List TranscriptionSegment)}
    {outs : List (List TranscriptionSegment)}
    (h : List.Forall₂ (fun c o => oracle c = .ok o) chunks outs) :
    ∀ (i : Nat) (acc : List TranscriptionSegment),
      (runLoop oracle total chunks i acc).result = .ok (acc ++ outs.flatten) := by
  induction h with
  | nil => intro i acc; simp [runLoop]
  | @cons c o cs os hco _ ih =>
    intro i acc
    show (match oracle c with
      | .error e => _
      | .ok out => _ : RunOutcome).result = _
    rw [hco]
    simp only [List.flatten_cons, ← List.append_assoc]
    exact ih (i + 1) (acc ++ o)

theorem runLoop_error (oracle : List TranscriptionSegment → Except String (List TranscriptionSegment))
    (total : Nat) (e : String) :
    ∀ (pre : List (List TranscriptionSegment)) (cj : List TranscriptionSegment)
      (post : List (List TranscriptionSegment)) (i : Nat) (acc : List TranscriptionSegment),
      (∀ c ∈ pre, ∃ o, oracle c = .ok o) → oracle cj = .error e →
      (runLoop oracle total (pre ++ cj :: post) i acc).result
          = .error ("Translation failed: " ++ e) ∧
      (runLoop oracle total (pre ++ cj :: post) i acc).calls = pre ++ [cj] := by
  intro pre
  induction pre with
  | nil =>
    intro cj post i acc _ hfail
    constructor
    · show (match oracle cj with
        | .error e => _
        | .ok out => _ : RunOutcome).result = _
      rw [hfail]
    · show (match oracle cj with
        | .error e => _
        | .ok out => _ : RunOutcome).calls = _
      rw [hfail]
      rfl
  | cons c pre ih =>
    intro cj post i acc hok hfail
    obtain ⟨o, ho⟩ := hok c (List.mem_cons_self _ _)
    have ihspec := ih cj post (i + 1) (acc ++ o)
      (fun x hx => hok x (List.mem_cons_of_mem _ hx)) hfail
    constructor
    · show (match oracle c with
        | .error e => _
        | .ok out => _ : RunOutcome).result = _
      rw [ho]
      exact ihspec.1
    · show (match oracle c with
        | .error e => _
        | .ok out => _ : RunOutcome).calls = _
      rw [ho]
      show c :: (runLoop oracle total (pre ++ cj :: post) (i + 1) (acc ++ o)).calls = _
      rw [ihspec.2]
      rfl

theorem flatten_length_eq_of_forall₂ {α β : Type}
    {L1 : List (List α)} {L2 : List (List β)}
    (h : List.Forall₂ (fun c o => o.length = c.length) L1 L2) :
    L2.flatten.length = L1.flatten.length := by
  induction h with
  | nil => rfl
  | cons hab hrest ih => simp [hab, ih]

/-- Sample segments and oracles used by the concrete witnesses below. -/
def sampleSeg (n : Nat) : TranscriptionSegment :=
  { startTime := String.mk (decChars n), endTime := String.mk (decChars (n + 1)),
    text := "t", speaker := none }

def sampleSegs (n : Nat) : List TranscriptionSegment := (List.range n).map sampleSeg

/-- An external translation that returns each chunk unchanged. -/
def okOracle : List TranscriptionSegment → Except String (List TranscriptionSegment) :=
  fun c => .ok c

/-- An external translation that rejects exactly on the final short chunk
of a 13-segment input. -/
def failLastOracle : List TranscriptionSegment → Except String (List TranscriptionSegment) :=
  fun c => if c.length = 1 then .error "boom" else .ok c

/-- An external translation that silently drops every segment. -/
def dropAllOracle : List TranscriptionSegment → Except String (List TranscriptionSegment) :=
  fun _ => .ok []

/-- C1: for every input segment sequence and every oracle whose chunk
calls all succeed respecting the contract (same length, identical
`startTime`/`endTime` at every index), the orchestrator succeeds and its
output has identical `startTime`/`endTime` to the input at every
index. -/
theorem translation_preserves_timing
    (oracle : List TranscriptionSegment → Except String (List TranscriptionSegment))
    (segs : List TranscriptionSegment)
    (hok : ∀ c ∈ chunks12 segs, ∃ out, oracle c = .ok out ∧ out.length = c.length ∧
      ∀ (k : Nat) (hk : k < c.length) (hk2 : k < out.length),
        (out.get ⟨k, hk2⟩).startTime = (c.get ⟨k, hk⟩).startTime ∧
        (out.get ⟨k, hk2⟩).endTime = (c.get ⟨k, hk⟩).endTime) :
    ∃ res, (runTranslation oracle segs).result = .ok res ∧ res.length = segs.length ∧
      ∀ (k : Nat) (hk : k < segs.length) (hk2 : k < res.length),
        (res.get ⟨k, hk2⟩).startTime = (segs.get ⟨k, hk⟩).startTime ∧
        (res.get ⟨k, hk2⟩).endTime = (segs.get ⟨k, hk⟩).endTime := by
  have h2 : ∀ c ∈ chunks12 segs, ∃ out, oracle c = .ok out ∧
      List.Forall₂ (fun c o => o.startTime = c.startTime ∧ o.endTime = c.endTime) c out := by
    intro c hc
    obtain ⟨out, h1, hlen, hget⟩ := hok c hc
    refine ⟨out, h1, ?_⟩
    rw [List.forall₂_iff_get]
    exact ⟨hlen.symm, fun i hi1 hi2 => hget i hi1 hi2⟩
  obtain ⟨outs, houts⟩ := exists_forall₂_of_forall h2
  have hok2 := houts.imp (fun _ _ hab => hab.1)
  have htim := houts.imp (fun _ _ hab => hab.2)
  have hfj := forall₂_join htim
  rw [chunks12_join] at hfj
  refine ⟨outs.flatten, ?_, ?_, ?_⟩
  · have := runLoop_ok oracle (chunks12 segs).length hok2 0 []
    simpa [runTranslation] using this
  · exact hfj.length_eq.symm
  · rw [List.forall₂_iff_get] at hfj
    intro k hk hk2
    exact hfj.2 k hk hk2

theorem translation_preserves_timing_witness :
    ∃ res, (runTranslation okOracle (sampleSegs 3)).result = .ok res ∧
      res.length = (sampleSegs 3).length ∧
      ∀ (k : Nat) (hk : k < (sampleSegs 3).length) (hk2 : k < res.length),
        (res.get ⟨k, hk2⟩).startTime = ((sampleSegs 3).get ⟨k, hk⟩).startTime ∧
        (res.get ⟨k, hk2⟩).endTime = ((sampleSegs 3).get ⟨k, hk⟩).endTime :=
  translation_preserves_timing okOracle (sampleSegs 3)
    (fun c _ => ⟨c, rfl, rfl, fun _ _ _ => ⟨rfl, rfl⟩⟩)

/-- C3: if every chunk before some chunk `cj` succeeds and the external
call on `cj` rejects with message `e`, the orchestrator surfaces
`"Translation failed: " ++ e` (a translation-specific failure), returns
no segment list at all, and invokes no chunk beyond `cj`. -/
theorem translation_failure_aborts
    (oracle : List TranscriptionSegment → Except String (List TranscriptionSegment))
    (segs : List TranscriptionSegment)
    (pre : List (List TranscriptionSegment)) (cj : List TranscriptionSegment)
    (post : List (List TranscriptionSegment)) (e : String)
    (hchunks : chunks12 segs = pre ++ cj :: post)
    (hpre : ∀ c ∈ pre, ∃ o, oracle c = .ok o)
    (hfail : oracle cj = .error e) :
    (runTranslation oracle segs).result = .error ("Translation failed: " ++ e) ∧
    (∀ res, (runTranslation oracle segs).result ≠ .ok res) ∧
    (runTranslation oracle segs).calls = pre ++ [cj] := by
  have key := runLoop_error oracle (chunks12 segs).length e pre cj post 0 [] hpre hfail
  have hrun : runTranslation oracle segs
      = runLoop oracle (chunks12 segs).length (pre ++ cj :: post) 0 [] := by
    unfold runTranslation
    rw [hchunks]
  refine ⟨by rw [hrun]; exact key.1, ?_, by rw [hrun]; exact key.2⟩
  intro res hres
  rw [hrun, key.1] at hres
  exact Except.noConfusion hres

theorem translation_failure_aborts_witness :
    (runTranslation failLastOracle (sampleSegs 13)).result
        = .error ("Translation failed: " ++ "boom") ∧
    (∀ res, (runTranslation failLastOracle (sampleSegs 13)).result ≠ .ok res) ∧
    (runTranslation failLastOracle (sampleSegs 13)).calls
        = [(sampleSegs 13).take 12] ++ [(sampleSegs 13).drop 12] :=
  translation_failure_aborts failLastOracle (sampleSegs 13)
    [(sampleSegs 13).take 12] ((sampleSegs 13).drop 12) [] "boom"
    (by decide)
    (fun c hc => by
      rw [List.mem_singleton] at hc
      subst hc
      exact ⟨(sampleSegs 13).take 12, by decide⟩)
    (by decide)

/-- C4, counterexample: the orchestrator performs no length check.  With
an external call that returns an empty list for the single chunk of a
one-segment input, the run still succeeds (`setTranslatedSegments` is
reached) and the returned sequence is shorter than the input — the claim
that a mismatching chunk length is treated as a failure is false of the
code. -/
theorem translation_length_unchecked_cex :
    (runTranslation dropAllOracle (sampleSegs 1)).result = .ok [] ∧
    dropAllOracle (sampleSegs 1) = .ok [] ∧
    ([] : List TranscriptionSegment).length ≠ (sampleSegs 1).length := by decide

/-- C4, amended: the orchestrator returns the concatenation of the chunk
results without any length check; consequently the output length equals
the input length exactly when every chunk call preserves its chunk's
length — under that hypothesis the run succeeds with an equal-length
output. -/
theorem translation_length_conditional
    (oracle : List TranscriptionSegment → Except String (List TranscriptionSegment))
    (segs : List TranscriptionSegment)
    (hok : ∀ c ∈ chunks12 segs, ∃ out, oracle c = .ok out ∧ out.length = c.length) :
    ∃ res, (runTranslation oracle segs).result = .ok res ∧ res.length = segs.length := by
  obtain ⟨outs, houts⟩ := exists_forall₂_of_forall hok
  have hok2 := houts.imp (fun _ _ hab => hab.1)
  have hlen := flatten_length_eq_of_forall₂ (houts.imp (fun _ _ hab => hab.2))
  rw [chunks12_join] at hlen
  refine ⟨outs.flatten, ?_, hlen⟩
  have := runLoop_ok oracle (chunks12 segs).length hok2 0 []
  simpa [runTranslation] using this

theorem translation_length_conditional_witness :
    ∃ res, (runTranslation okOracle (sampleSegs 2)).result = .ok res ∧
      res.length = (sampleSegs 2).length :=
  translation_length_conditional okOracle (sampleSegs 2) (fun c _ => ⟨c, rfl, rfl⟩)

/-- C5, counterexample: on 25 segments with all chunk calls succeeding,
the three reported progress values are `33, 67, 100` — not `34, 67, 100`
as claimed: `Math.round(100 * 1 / 3) = Math.round(33.33…) = 33`. -/
theorem translation_progress_values_cex :
    (runTranslation okOracle (sampleSegs 25)).progress = [33, 67, 100] ∧
    ([33, 67, 100] : List Nat) ≠ [34, 67, 100] := by decide

/-- C5, amended: 25 segments with chunk size 12 produce exactly 3 chunk
calls of sizes 12, 12, 1, and after each chunk the emitted progress
signal is `round(100 * chunksCompleted / totalChunks)`, giving the values
33, 67, 100. -/
theorem translation_progress_values :
    (runTranslation okOracle (sampleSegs 25)).calls.map List.length = [12, 12, 1] ∧
    (runTranslation okOracle (sampleSegs 25)).progress
      = [progressPct 1 3, progressPct 2 3, progressPct 3 3] ∧
    (runTranslation okOracle (sampleSegs 25)).progress = [33, 67, 100] := by decide

/-! ## Extractor lemmas and claims -/

theorem splitAtFirstSub_eq {pat : List Char} :
    ∀ {l a b : List Char}, splitAtFirstSub pat l = some (a, b) → l = a ++ pat ++ b := by
  intro l
  induction l with
  | nil =>
    intro a b h
    unfold splitAtFirstSub at h
    by_cases hp : pat = []
    · rw [if_pos hp] at h
      cases h
      simp [hp]
    · rw [if_neg hp] at h
      exact Option.noConfusion h
  | cons x xs ih =>
    intro a b h
    unfold splitAtFirstSub at h
    by_cases hp : pat.isPrefixOf (x :: xs)
    · rw [if_pos hp] at h
      cases h
      obtain ⟨t, ht⟩ := List.isPrefixOf_iff_prefix.mp hp
      simp only [List.nil_append]
      rw [← ht, List.drop_left]
    · rw [if_neg hp] at h
      rw [Option.map_eq_some'] at h
      obtain ⟨p, hp2, hpe⟩ := h
      cases hpe
      have := ih (a := p.1) (b := p.2) (by rw [hp2])
      simp [this]

theorem mem_of_firstIdxOf {c : Char} :
    ∀ {l : List Char} {i : Nat}, firstIdxOf c l = some i → c ∈ l := by
  intro l
  induction l with
  | nil => intro i h; exact Option.noConfusion h
  | cons x xs ih =>
    intro i h
    unfold firstIdxOf at h
    by_cases hx : x = c
    · exact hx ▸ List.mem_cons_self _ _
    · rw [if_neg hx, Option.map_eq_some'] at h
      obtain ⟨j, hj, _⟩ := h
      exact List.mem_cons_of_mem _ (ih hj)

theorem fenceGroup_backtick {cleaned g : List Char} (h : fenceGroup cleaned = some g) :
    btick ∈ cleaned := by
  unfold fenceGroup at h
  cases heq : splitAtFirstSub [btick, btick, btick] cleaned with
  | none => rw [heq] at h; exact Option.noConfusion h
  | some p =>
    have := splitAtFirstSub_eq heq
    rw [this]
    simp

/-- `trimRight` keeps a prefix of its argument. -/
theorem trimRight_prefix (l : List Char) : trimRight l <+: l := by
  unfold trimRight
  have h1 : (l.reverse.dropWhile isJsWs) <:+ l.reverse := List.dropWhile_suffix _
  have := List.reverse_prefix.mpr h1
  simpa using this

theorem trimList_head_not_ws {l res : List Char} {x : Char}
    (h : trimList l = x :: res) : isJsWs x = false := by
  obtain ⟨t, ht⟩ := trimRight_prefix (trimLeft l)
  unfold trimList at h
  rw [h] at ht
  exact trimLeft_head_not_ws (l := l) (by rw [← ht]; rfl)

theorem trimList_getLast_not_ws {l res : List Char} {x : Char}
    (h : trimList l = res ++ [x]) : isJsWs x = false :=
  trimRight_getLast_not_ws (l := trimLeft l) h

/-- The facts about an ASCII letter needed for the pure-prose analysis. -/
theorem alpha_char_facts (c : Char) (h : c.isAlpha = true) :
    isJsWs c = false ∧ isJsonWs c = false ∧ isDigitChar c = false ∧
    c ≠ btick ∧ c ≠ '{' ∧ c ≠ '[' ∧ c ≠ '"' ∧ c ≠ '-' := by
  refine ⟨?_, ?_, ?_, ?_, ?_, ?_, ?_, ?_⟩
  · by_contra hh
    rw [Bool.not_eq_false] at hh
    simp only [isJsWs, Bool.or_eq_true, decide_eq_true_eq] at hh
    rcases hh with ((((rfl | rfl) | rfl) | rfl) | rfl) | rfl <;> exact absurd h (by decide)
  · by_contra hh
    rw [Bool.not_eq_false] at hh
    simp only [isJsonWs, Bool.or_eq_true, decide_eq_true_eq] at hh
    rcases hh with ((rfl | rfl) | rfl) | rfl <;> exact absurd h (by decide)
  · by_contra hh
    rw [Bool.not_eq_false] at hh
    simp only [isDigitChar, Bool.or_eq_true, decide_eq_true_eq] at hh
    rcases hh with ((((((((rfl | rfl) | rfl) | rfl) | rfl) | rfl) | rfl) | rfl) | rfl) | rfl <;>
      exact absurd h (by decide)
  · intro hh; rw [hh] at h; exact absurd h (by decide)
  · intro hh; rw [hh] at h; exact absurd h (by decide)
  · intro hh; rw [hh] at h; exact absurd h (by decide)
  · intro hh; rw [hh] at h; exact absurd h (by decide)
  · intro hh; rw [hh] at h; exact absurd h (by decide)

theorem jsonWs_imp_jsWs {c : Char} (h : isJsonWs c = true) : isJsWs c = true := by
  simp only [isJsonWs, Bool.or_eq_true, decide_eq_true_eq] at h
  rcases h with ((rfl | rfl) | rfl) | rfl <;> rfl

theorem parseJ_value_t (f : Nat) (xs : List Char) :
    parseJ (f + 1) .value ('t' :: xs)
      = if ['r', 'u', 'e'].isPrefixOf xs then some (.v (.bool true), xs.drop 3) else none := rfl

theorem parseJ_value_f (f : Nat) (xs : List Char) :
    parseJ (f + 1) .value ('f' :: xs)
      = if ['a', 'l', 's', 'e'].isPrefixOf xs then some (.v (.bool false), xs.drop 4)
        else none := rfl

theorem parseJ_value_n (f : Nat) (xs : List Char) :
    parseJ (f + 1) .value ('n' :: xs)
      = if ['u', 'l', 'l'].isPrefixOf xs then some (.v .null, xs.drop 3) else none := rfl

theorem parseJ_value_other (f : Nat) (c : Char) (xs : List Char)
    (h1 : c ≠ 't') (h2 : c ≠ 'f') (h3 : c ≠ 'n') (h4 : c ≠ '"') (h5 : c ≠ '[')
    (h6 : c ≠ '{') (h7 : c ≠ '-') (h8 : isDigitChar c = false) :
    parseJ (f + 1) .value (c :: xs) = none := by
  simp only [parseJ]
  rw [if_neg h1, if_neg h2, if_neg h3, if_neg h4, if_neg h5, if_neg h6,
    if_neg (not_or.mpr ⟨h7, by simp [h8]⟩)]

/-- A trailing run of whitespace is impossible after `trim`: pick out the
last character. -/
theorem last_of_literal_append {w : List Char} {ys : List Char} (hys : ys ≠ []) :
    ∃ (L : List Char) (b : Char), w ++ ys = (w ++ L) ++ [b] ∧ b ∈ ys := by
  rcases List.eq_nil_or_concat ys with rfl | ⟨L, b, rfl⟩
  · exact absurd rfl hys
  · exact ⟨L, b, by simp, by simp⟩

/-- `JSON.parse` on a non-empty trimmed input of letters and spaces:
either it throws, or the input is exactly one of the literals `true`,
`false`, `null` and it returns that value. -/
theorem jsonParse_prose {cleaned : List Char}
    (hchars : ∀ c ∈ cleaned, c.isAlpha = true ∨ c = ' ')
    (hhead : ∀ (x : Char) (res : List Char), cleaned = x :: res → isJsWs x = false)
    (hlast : ∀ (x : Char) (res : List Char), cleaned = res ++ [x] → isJsWs x = false) :
    jsonParse cleaned = none ∨
    (cleaned = ['t', 'r', 'u', 'e'] ∧ jsonParse cleaned = some (Json.bool true)) ∨
    (cleaned = ['f', 'a', 'l', 's', 'e'] ∧ jsonParse cleaned = some (Json.bool false)) ∨
    (cleaned = ['n', 'u', 'l', 'l'] ∧ jsonParse cleaned = some Json.null) := by
  cases hcl : cleaned with
  | nil => left; rfl
  | cons x xs =>
    rw [hcl] at hchars hhead hlast
    have hx : isJsWs x = false := hhead x xs rfl
    have hxa : x.isAlpha = true := by
      rcases hchars x (List.mem_cons_self _ _) with h | rfl
      · exact h
      · exact absurd hx (by decide)
    obtain ⟨hxws, hxjws, hxdig, hxbt, hxbr, hxbk, hxq, hxdash⟩ := alpha_char_facts x hxa
    have hskip : skipJsonWs (x :: xs) = x :: xs := by
      unfold skipJsonWs
      rw [List.dropWhile_cons, if_neg (by simp [hxjws])]
    unfold jsonParse
    rw [hskip]
    have hfuel : 2 * (x :: xs).length + 2 = (2 * (x :: xs).length + 1) + 1 := rfl
    rw [hfuel]
    -- helper handling the three literal heads uniformly
    have literalCase :
        ∀ (lit : List Char) (v : Json) (d : Nat),
          parseJ (2 * (x :: xs).length + 1 + 1) .value (x :: xs)
            = (if lit.isPrefixOf xs then some (.v v, xs.drop d) else none) →
          lit.length = d →
          (∀ c ∈ lit, c ≠ ' ') →
          (match parseJ (2 * (x :: xs).length + 1 + 1) .value (x :: xs) with
            | some (.v j, rest) => if skipJsonWs rest = [] then some j else none
            | _ => none) = none ∨
          (x :: xs = x :: lit ∧
            (match parseJ (2 * (x :: xs).length + 1 + 1) .value (x :: xs) with
              | some (.v j, rest) => if skipJsonWs rest = [] then some j else none
              | _ => none) = some v) := by
      intro lit v d hev hlen _
      by_cases hpre : lit.isPrefixOf xs
      · obtain ⟨rest, hrest⟩ := List.isPrefixOf_iff_prefix.mp hpre
        have hdrop : xs.drop d = rest := by
          rw [← hrest, ← hlen, List.drop_left]
        rw [if_pos hpre, hdrop] at hev
        rw [hev]
        by_cases hrest0 : skipJsonWs rest = []
        · have hall : ∀ c ∈ rest, isJsonWs c = true := List.dropWhile_eq_nil_iff.mp hrest0
          cases hre : rest with
          | nil =>
            right
            constructor
            · rw [← hrest, hre]; simp
            · rfl
          | cons r rs =>
            exfalso
            obtain ⟨L, b, hb, hbmem⟩ := @last_of_literal_append lit (r :: rs) (by simp)
            have hbws : isJsWs b = false := by
              apply hlast b (x :: (lit ++ L))
              rw [← hrest, hre, hb]
              simp
            have := jsonWs_imp_jsWs (hall b (by rw [hre]; exact hbmem))
            rw [this] at hbws
            exact Bool.noConfusion hbws
        · left
          show (if skipJsonWs rest = [] then some v else none) = none
          rw [if_neg hrest0]
      · rw [if_neg hpre] at hev
        rw [hev]
        left
        rfl
    by_cases ht : x = 't'
    · subst ht
      rcases literalCase ['r', 'u', 'e'] (.bool true) 3 (parseJ_value_t _ xs) rfl (by decide)
        with h | ⟨he, hv⟩
      · exact Or.inl h
      · exact Or.inr (Or.inl ⟨he, hv⟩)
    · by_cases hf : x = 'f'
      · subst hf
        rcases literalCase ['a', 'l', 's', 'e'] (.bool false) 4 (parseJ_value_f _ xs) rfl
          (by decide) with h | ⟨he, hv⟩
        · exact Or.inl h
        · exact Or.inr (Or.inr (Or.inl ⟨he, hv⟩))
      · by_cases hn : x = 'n'
        · subst hn
          rcases literalCase ['u', 'l', 'l'] .null 3 (parseJ_value_n _ xs) rfl (by decide)
            with h | ⟨he, hv⟩
          · exact Or.inl h
          · exact Or.inr (Or.inr (Or.inr ⟨he, hv⟩))
        · left
          rw [parseJ_value_other _ x xs ht hf hn hxq hxbk hxbr hxdash hxdig]

theorem extractRun_skips_empty_guard {t : String} (h0 : t.toList ≠ []) :
    ¬(t.toList.isEmpty = true) := by
  simpa using h0

/-- When the fence stage finds nothing and no bracketed candidate is
selected, `extractJson` is the last-ditch whole-input parse. -/
theorem extractRun_final_only {t : String}
    (h0 : t.toList ≠ [])
    (hf : fenceGroup (trimList t.toList) = none)
    (hb : bracketCandidate (trimList t.toList) = []) :
    extractRun t = finalStage (trimList t.toList) := by
  unfold extractRun
  rw [if_neg (extractRun_skips_empty_guard h0)]
  simp only [hf]
  unfold candidateStage
  rw [if_pos (by simp only [List.isEmpty_iff]; exact hb)]

/-- When the fence stage finds nothing but a candidate is selected,
`extractJson` is the candidate stage. -/
theorem extractRun_candidate {t : String}
    (h0 : t.toList ≠ [])
    (hf : fenceGroup (trimList t.toList) = none) :
    extractRun t = candidateStage (trimList t.toList) := by
  unfold extractRun
  rw [if_neg (extractRun_skips_empty_guard h0)]
  simp only [hf]

/-- The candidate stage with a non-empty candidate: the SANITIZED
candidate is parsed first; the unsanitized candidate is parsed only if
that fails; if both fail the whole trimmed input is parsed last. -/
theorem candidateStage_eq {cleaned : List Char} (hc : bracketCandidate cleaned ≠ []) :
    candidateStage cleaned =
      match jsonParse (sanitizeCandidate (bracketCandidate cleaned)) with
      | some v => ⟨v, false, [sanitizeCandidate (bracketCandidate cleaned)]⟩
      | none =>
        match jsonParse (bracketCandidate cleaned) with
        | some v =>
          ⟨v, false, [sanitizeCandidate (bracketCandidate cleaned), bracketCandidate cleaned]⟩
        | none =>
          ⟨(finalStage cleaned).value, (finalStage cleaned).caughtLog,
            sanitizeCandidate (bracketCandidate cleaned) :: bracketCandidate cleaned
              :: (finalStage cleaned).attempts⟩ := by
  unfold candidateStage
  rw [if_neg (by simp [hc])]

/-- The whole-text fallback when a truthy fenced parse does not occur. -/
theorem extractRun_fence_falsy {t : String} {g : List Char} {v : Json}
    (h0 : t.toList ≠ [])
    (hg : fenceGroup (trimList t.toList) = some g) (hge : g ≠ [])
    (hp : jsonParse (trimList g) = some v) (hfalsy : v.truthy = false) :
    extractRun t = ⟨(candidateStage (trimList t.toList)).value,
      (candidateStage (trimList t.toList)).caughtLog,
      trimList g :: (candidateStage (trimList t.toList)).attempts⟩ := by
  unfold extractRun
  rw [if_neg (extractRun_skips_empty_guard h0)]
  simp only [hg]
  rw [if_neg (by simp [hge])]
  simp only [hp, hfalsy]
  rfl

/-- "Pure prose with no JSON-like punctuation": a non-empty string of
ASCII letters and spaces. -/
def pureProse (s : String) : Prop :=
  s.toList ≠ [] ∧ ∀ c ∈ s.toList, c.isAlpha = true ∨ c = ' '

/-- C6, counterexample: the single word `true` is pure prose with no
JSON-like punctuation, yet `extractJson` returns the value `true` — the
last-ditch `JSON.parse` of the whole input succeeds on a bare JSON
literal, so the claim "extract returns null on all pure prose" is false
of the code. -/
theorem extract_prose_cex :
    pureProse "true" ∧ extractJson "true" = Json.bool true ∧ Json.bool true ≠ Json.null := by
  refine ⟨⟨by decide, by decide⟩, rfl, ?_⟩
  intro h
  exact Json.noConfusion h

/-- C6, amended: `extractJson` (a total function — it cannot raise)
returns `null` on a `null` argument, on the empty string, and on every
pure-prose input whose trimmed text is not one of the bare JSON literals
`true` / `false` (for the literal `null` it also returns `null`); on
total failure the logged diagnostic snippet is the input bounded to its
first 100 characters (plus an ellipsis). -/
theorem extract_prose_amended :
    extractJsonNullable none = Json.null ∧
    extractJson "" = Json.null ∧
    (∀ s : String, pureProse s →
      trimList s.toList ≠ ['t', 'r', 'u', 'e'] →
      trimList s.toList ≠ ['f', 'a', 'l', 's', 'e'] →
      extractJson s = Json.null) ∧
    (∀ (t : String) (sn : String), extractJsonLog t = some sn →
      sn.toList = snippetOf t.toList ∧ sn.toList.length ≤ t.toList.length + 3 ∧
      sn.toList.length ≤ 103) := by
  refine ⟨rfl, rfl, ?_, ?_⟩
  · intro s hp htrue hfalse
    obtain ⟨hne, hchars⟩ := hp
    have hchars2 : ∀ c ∈ trimList s.toList, c.isAlpha = true ∨ c = ' ' :=
      fun c hc => hchars c (mem_trimList hc)
    have hfence : fenceGroup (trimList s.toList) = none := by
      cases hfg : fenceGroup (trimList s.toList) with
      | none => rfl
      | some g =>
        exfalso
        rcases hchars2 btick (fenceGroup_backtick hfg) with h | h
        · exact absurd h (by decide)
        · exact absurd h (by decide)
    have hbc : bracketCandidate (trimList s.toList) = [] := by
      have hb : firstIdxOf '{' (trimList s.toList) = none := by
        cases hq : firstIdxOf '{' (trimList s.toList) with
        | none => rfl
        | some i =>
          exfalso
          rcases hchars2 '{' (mem_of_firstIdxOf hq) with h | h
          · exact absurd h (by decide)
          · exact absurd h (by decide)
      have hk : firstIdxOf '[' (trimList s.toList) = none := by
        cases hq : firstIdxOf '[' (trimList s.toList) with
        | none => rfl
        | some i =>
          exfalso
          rcases hchars2 '[' (mem_of_firstIdxOf hq) with h | h
          · exact absurd h (by decide)
          · exact absurd h (by decide)
      unfold bracketCandidate
      rw [hb, hk]
    have hparse := @jsonParse_prose (trimList s.toList) hchars2
      (fun _ _ h => trimList_head_not_ws h) (fun _ _ h => trimList_getLast_not_ws h)
    have hrun : extractJson s = (finalStage (trimList s.toList)).value := by
      unfold extractJson
      rw [extractRun_final_only hne hfence hbc]
    rcases hparse with hnone | ⟨he, _⟩ | ⟨he, _⟩ | ⟨_, hv⟩
    · rw [hrun]
      unfold finalStage
      rw [hnone]
    · exact absurd he htrue
    · exact absurd he hfalse
    · rw [hrun]
      unfold finalStage
      rw [hv]
  · intro t sn h
    unfold extractJsonLog at h
    by_cases hb : (extractRun t).caughtLog = true
    · rw [if_pos hb] at h
      have hsn : sn = String.mk (snippetOf t.toList) := (Option.some.injEq _ _ ▸ h).symm
      subst hsn
      refine ⟨rfl, ?_, ?_⟩
      · show (snippetOf t.toList).length ≤ _
        unfold snippetOf
        by_cases hlen : t.toList.length > 100
        · rw [if_pos hlen]
          simp only [List.length_append, List.length_take, List.length_cons, List.length_nil]
          omega
        · rw [if_neg hlen]
          omega
      · show (snippetOf t.toList).length ≤ 103
        unfold snippetOf
        by_cases hlen : t.toList.length > 100
        · rw [if_pos hlen]
          simp only [List.length_append, List.length_take, List.length_cons, List.length_nil]
          omega
        · rw [if_neg hlen]
          omega
    · rw [if_neg hb] at h
      exact Option.noConfusion h

theorem extract_prose_amended_witness :
    extractJson "hello there" = Json.null ∧ pureProse "hello there" :=
  ⟨extract_prose_amended.2.2.1 "hello there" ⟨by decide, by decide⟩ (by decide) (by decide),
    by decide, by decide⟩

/-- The candidate of C7's counterexample: the eight characters
`["x\'y"]` — an array whose string contains the invalid JSON escape
backslash-apostrophe, which the sanitization pass rewrites to a plain
apostrophe. -/
def c7Candidate : List Char := ['[', '"', 'x', '\\', squote, 'y', '"', ']']

def c7Text : String := String.mk c7Candidate

/-- Modelled from the spec (§4.1 steps 3–5, the claim's description):
the candidate-stage `JSON.parse` attempts in the claimed order —
unsanitized candidate first, sanitization retry second, unsanitized once
more third, stopping at the first success. -/
def specCandidateAttempts (cand : List Char) : List (List Char) :=
  match jsonParse cand with
  | some _ => [cand]
  | none =>
    match jsonParse (sanitizeCandidate cand) with
    | some _ => [cand, sanitizeCandidate cand]
    | none => [cand, sanitizeCandidate cand, cand]

/-- C7, counterexample: on the input `["x\'y"]` the fence stage finds
nothing, the bracketed candidate is the whole input, and the single
string `extractJson` passes to `JSON.parse` is the SANITIZED candidate —
whereas the claimed order would attempt the unsanitized candidate first.
The code's attempt sequence differs from the claimed one. -/
theorem extract_sanitize_order_cex :
    fenceGroup (trimList c7Text.toList) = none ∧
    bracketCandidate (trimList c7Text.toList) = c7Candidate ∧
    extractAttempts c7Text = [sanitizeCandidate c7Candidate] ∧
    sanitizeCandidate c7Candidate ≠ c7Candidate ∧
    specCandidateAttempts c7Candidate = [c7Candidate, sanitizeCandidate c7Candidate] ∧
    extractAttempts c7Text ≠ specCandidateAttempts c7Candidate := by
  refine ⟨rfl, rfl, rfl, by decide, rfl, by decide⟩

/-- C7, amended: when the fence stage does not succeed and a bracketed
candidate is located, `extractJson` parses the SANITIZED candidate
first; only if that fails does it retry the unsanitized candidate, once;
only if both fail does it fall through to parsing the whole trimmed
input, and the returned value is that of the first successful parse
(`null` if all fail). -/
theorem extract_sanitize_order_amended (t : String)
    (h0 : t.toList ≠ [])
    (hf : fenceGroup (trimList t.toList) = none)
    (hc : bracketCandidate (trimList t.toList) ≠ []) :
    extractAttempts t =
      (match jsonParse (sanitizeCandidate (bracketCandidate (trimList t.toList))) with
       | some _ => [sanitizeCandidate (bracketCandidate (trimList t.toList))]
       | none =>
         match jsonParse (bracketCandidate (trimList t.toList)) with
         | some _ => [sanitizeCandidate (bracketCandidate (trimList t.toList)),
             bracketCandidate (trimList t.toList)]
         | none => [sanitizeCandidate (bracketCandidate (trimList t.toList)),
             bracketCandidate (trimList t.toList), trimList t.toList]) ∧
    extractJson t =
      (match jsonParse (sanitizeCandidate (bracketCandidate (trimList t.toList))) with
       | some v => v
       | none =>
         match jsonParse (bracketCandidate (trimList t.toList)) with
         | some v => v
         | none =>
           match jsonParse (trimList t.toList) with
           | some v => v
           | none => Json.null) := by
  have hrun : extractRun t = candidateStage (trimList t.toList) :=
    extractRun_candidate h0 hf
  have hcs := candidateStage_eq hc
  unfold extractAttempts extractJson
  rw [hrun, hcs]
  rcases h1 : jsonParse (sanitizeCandidate (bracketCandidate (trimList t.toList))) with _ | v
  · rcases h2 : jsonParse (bracketCandidate (trimList t.toList)) with _ | v
    · unfold finalStage
      rcases h3 : jsonParse (trimList t.toList) with _ | v <;> exact ⟨rfl, rfl⟩
    · exact ⟨rfl, rfl⟩
  · exact ⟨rfl, rfl⟩

set_option maxRecDepth 4000 in
theorem extract_sanitize_order_amended_witness :
    extractAttempts c7Text = [sanitizeCandidate c7Candidate] ∧
    extractJson c7Text = Json.arr [Json.str ['x', squote, 'y']] := by
  have h := extract_sanitize_order_amended c7Text (by decide) rfl (by decide)
  refine ⟨?_, ?_⟩
  · rw [h.1]; rfl
  · rw [h.2]; rfl

/-- C10: if the first fenced block's content parses to a JSON-falsy
value (`false`, `null`, `0`, or the empty string), `extractJson` does
not return that value but falls through to the later strategies (the
bracket-candidate stage and the whole-input parse); in particular, on an
input that is exactly a fenced block around such a value it returns
`null`. -/
theorem extract_falsy_fence :
    (∀ (t : String) (g : List Char) (v : Json), t.toList ≠ [] →
      fenceGroup (trimList t.toList) = some g → g ≠ [] →
      jsonParse (trimList g) = some v → v.truthy = false →
      extractJson t = (candidateStage (trimList t.toList)).value ∧
      extractAttempts t = trimList g :: (candidateStage (trimList t.toList)).attempts) ∧
    (extractJson "```json\nfalse\n```" = Json.null ∧
     extractJson "```json\n0\n```" = Json.null ∧
     extractJson "```json\nnull\n```" = Json.null ∧
     extractJson "```json\n\"\"\n```" = Json.null) := by
  constructor
  · intro t g v h0 hg hge hp hfalsy
    have := extractRun_fence_falsy h0 hg hge hp hfalsy
    unfold extractJson extractAttempts
    rw [this]
    exact ⟨rfl, rfl⟩
  · exact ⟨rfl, rfl, rfl, rfl⟩

theorem extract_falsy_fence_witness :
    extractJson "```json\n0\n``` \x7b\"a\":true\x7d" = Json.obj [("a".toList, Json.bool true)] := by
  have h := extract_falsy_fence.1 "```json\n0\n``` \x7b\"a\":true\x7d" ['0'] (Json.num 0 0)
    (by decide) rfl (by decide) rfl rfl
  rw [h.1]
  rfl

/-! ## Archive lemmas and claims -/

/-- The `saveAsset` version predicate: `a.title === params.title &&
a.type === params.type`. -/
def sameTitleType (p : SaveParams) (a : ArchiveEntry) : Bool :=
  a.title == p.title && a.type == p.type

def demoParams : SaveParams :=
  { type := .Story, title := "Demo", content := "c", language := "en",
    toolId := "story", metadata := none }

/-- C8, amended: the new entry's version always equals 1 + the count of
STORED entries with the same (title, type); the per-type fileId counter
increases by exactly 1 on every save of that type (for any title) and is
rendered into the fileId; and the version does increase by exactly 1
across consecutive saves of the same (title, type) as long as the
500-entry retention cap has not yet evicted anything (in particular
while fewer than 500 entries are stored). -/
theorem archive_version_fileid (s : ArchiveState) (p : SaveParams)
    (u1 u2 : String) (t1 t2 : Int) :
    (saveAsset s p u1 t1).1.version = (s.archive.filter (sameTitleType p)).length + 1 ∧
    (saveAsset s p u1 t1).2.counters (typePrefix p.type)
        = s.counters (typePrefix p.type) + 1 ∧
    (saveAsset s p u1 t1).1.fileId
        = typePrefix p.type ++ "-"
            ++ String.mk (padStart3 (decChars (s.counters (typePrefix p.type) + 1))) ∧
    (s.archive.length < 500 →
      (saveAsset (saveAsset s p u1 t1).2 p u2 t2).1.version
          = (saveAsset s p u1 t1).1.version + 1) := by
  refine ⟨rfl, ?_, rfl, ?_⟩
  · show (fun k => if k = typePrefix p.type then s.counters (typePrefix p.type) + 1
      else s.counters k) (typePrefix p.type) = _
    simp
  · intro hlen
    have harch : (saveAsset s p u1 t1).2.archive
        = (saveAsset s p u1 t1).1 :: s.archive := by
      show ((saveAsset s p u1 t1).1 :: s.archive).take 500 = _
      exact List.take_of_length_le (by simp; omega)
    show ((saveAsset s p u1 t1).2.archive.filter (sameTitleType p)).length + 1 = _
    rw [harch, List.filter_cons_of_pos]
    · rfl
    · show sameTitleType p (saveAsset s p u1 t1).1 = true
      unfold sameTitleType
      simp [saveAsset]

theorem archive_version_fileid_witness :
    (saveAsset initialArchiveState demoParams "id1" 1).1.version
        = (initialArchiveState.archive.filter (sameTitleType demoParams)).length + 1 ∧
    (saveAsset initialArchiveState demoParams "id1" 1).2.counters (typePrefix demoParams.type)
        = initialArchiveState.counters (typePrefix demoParams.type) + 1 ∧
    (saveAsset initialArchiveState demoParams "id1" 1).1.fileId
        = typePrefix demoParams.type ++ "-"
            ++ String.mk (padStart3 (decChars
                (initialArchiveState.counters (typePrefix demoParams.type) + 1))) ∧
    (saveAsset (saveAsset initialArchiveState demoParams "id1" 1).2 demoParams "id2" 2).1.version
        = (saveAsset initialArchiveState demoParams "id1" 1).1.version + 1 := by
  have h := archive_version_fileid initialArchiveState demoParams "id1" "id2" 1 2
  exact ⟨h.1, h.2.1, h.2.2.1, h.2.2.2 (by decide)⟩

theorem iterSaves_inv (p : SaveParams) :
    ∀ n : Nat, n ≤ 500 →
      (iterSaves p n).archive.length = n ∧
      ∀ a ∈ (iterSaves p n).archive, sameTitleType p a = true := by
  intro n
  induction n with
  | zero =>
    intro _
    exact ⟨rfl, fun a ha => absurd ha (by simp [iterSaves, initialArchiveState])⟩
  | succ n ih =>
    intro hn
    obtain ⟨hlen, hall⟩ := ih (by omega)
    have harch : (iterSaves p (n + 1)).archive
        = ((saveAsset (iterSaves p n) p (String.mk (decChars n)) n).1
            :: (iterSaves p n).archive).take 500 := rfl
    constructor
    · rw [harch, List.length_take, List.length_cons, hlen]
      omega
    · intro a ha
      rw [harch] at ha
      rcases List.mem_cons.mp (List.mem_of_mem_take ha) with rfl | h
      · unfold sameTitleType
        simp [saveAsset]
      · exact hall a h

/-- C8, counterexample: after 500 saves of the same (title, type) from
the empty store, the 501st save has version 501 and the truncation to
500 entries evicts a matching entry, so the 502nd save ALSO has version
501 — the version does not strictly increase by 1 on every save. -/
theorem archive_version_cap_cex :
    (saveAsset (iterSaves demoParams 500) demoParams "u501" 500).1.version = 501 ∧
    (saveAsset (saveAsset (iterSaves demoParams 500) demoParams "u501" 500).2
        demoParams "u502" 501).1.version = 501 := by
  obtain ⟨hlen, hall⟩ := iterSaves_inv demoParams 500 (Nat.le_refl _)
  have hfilt : (iterSaves demoParams 500).archive.filter (sameTitleType demoParams)
      = (iterSaves demoParams 500).archive := List.filter_eq_self.mpr hall
  have h1 : (saveAsset (iterSaves demoParams 500) demoParams "u501" 500).1.version = 501 := by
    show ((iterSaves demoParams 500).archive.filter (sameTitleType demoParams)).length + 1 = 501
    rw [hfilt, hlen]
  refine ⟨h1, ?_⟩
  have harch1 : (saveAsset (iterSaves demoParams 500) demoParams "u501" 500).2.archive
      = ((saveAsset (iterSaves demoParams 500) demoParams "u501" 500).1
          :: (iterSaves demoParams 500).archive).take 500 := rfl
  have hlen1 : (saveAsset (iterSaves demoParams 500) demoParams "u501" 500).2.archive.length
      = 500 := by
    rw [harch1, List.length_take, List.length_cons, hlen]
    omega
  have hall1 : ∀ a ∈ (saveAsset (iterSaves demoParams 500) demoParams "u501" 500).2.archive,
      sameTitleType demoParams a = true := by
    intro a ha
    rw [harch1] at ha
    rcases List.mem_cons.mp (List.mem_of_mem_take ha) with rfl | h
    · unfold sameTitleType
      simp [saveAsset]
    · exact hall a h
  show ((saveAsset (iterSaves demoParams 500) demoParams "u501" 500).2.archive.filter
      (sameTitleType demoParams)).length + 1 = 501
  rw [List.filter_eq_self.mpr hall1, hlen1]

/-- Most-recent-first ordering: a later (more recent) entry sits before
an earlier one, i.e. timestamps strictly decrease along the stored
list. -/
def descTS (a b : ArchiveEntry) : Prop := b.timestamp < a.timestamp

/-- The timestamps of the save operations of an operation sequence, in
order. -/
def saveTimes : List ArchiveOp → List Int :=
  List.filterMap (fun op =>
    match op with
    | .save _ _ t => some t
    | .del _ => none)

theorem archive_inv_step :
    ∀ (ops : List ArchiveOp) (s : ArchiveState),
      (saveTimes ops).Pairwise (· < ·) →
      s.archive.length ≤ 500 →
      s.archive.Pairwise descTS →
      (∀ a ∈ s.archive, ∀ t ∈ saveTimes ops, a.timestamp < t) →
      (applyOps ops s).archive.length ≤ 500 ∧ (applyOps ops s).archive.Pairwise descTS := by
  intro ops
  induction ops with
  | nil => exact fun s _ h1 h2 _ => ⟨h1, h2⟩
  | cons op ops ih =>
    intro s hmono hlen hpw hbound
    show (applyOps ops (applyOp s op)).archive.length ≤ 500 ∧
      (applyOps ops (applyOp s op)).archive.Pairwise descTS
    cases op with
    | save p u t =>
      have htimes : saveTimes (.save p u t :: ops) = t :: saveTimes ops := rfl
      rw [htimes] at hmono hbound
      have harch : (applyOp s (.save p u t)).archive
          = ((saveAsset s p u t).1 :: s.archive).take 500 := rfl
      apply ih
      · exact (List.pairwise_cons.mp hmono).2
      · rw [harch, List.length_take]
        omega
      · rw [harch]
        apply List.Pairwise.sublist (List.take_sublist _ _)
        rw [List.pairwise_cons]
        refine ⟨?_, hpw⟩
        intro a ha
        exact hbound a ha t (List.mem_cons_self _ _)
      · intro a ha t2 ht2
        rw [harch] at ha
        rcases List.mem_cons.mp (List.mem_of_mem_take ha) with rfl | h
        · show ((saveAsset s p u t).1).timestamp < t2
          have : ((saveAsset s p u t).1).timestamp = t := rfl
          rw [this]
          exact (List.pairwise_cons.mp hmono).1 t2 ht2
        · exact hbound a h t2 (List.mem_cons_of_mem _ ht2)
    | del i =>
      have htimes : saveTimes (.del i :: ops) = saveTimes ops := rfl
      rw [htimes] at hmono hbound
      have harch : (applyOp s (.del i)).archive
          = s.archive.filter (fun a => !(a.id == i)) := rfl
      apply ih
      · exact hmono
      · rw [harch]
        exact le_trans (List.length_filter_le _ _) hlen
      · rw [harch]
        exact hpw.sublist (List.filter_sublist _)
      · intro a ha t2 ht2
        rw [harch] at ha
        exact hbound a (List.mem_of_mem_filter ha) t2 ht2

/-- C9: the new entry is inserted at the head and the collection
truncated to 500 on every save (`unshift` + `slice(0, 500)`); after any
sequence of save and delete operations (with save timestamps supplied in
increasing order by the environment's clock), the store holds at most
500 entries, sorted most-recent-first (strictly descending timestamps),
and `listAll` returns exactly that stored collection. -/
theorem archive_retention_order (ops : List ArchiveOp)
    (hmono : (saveTimes ops).Pairwise (· < ·)) :
    listAll (applyOps ops initialArchiveState)
        = (applyOps ops initialArchiveState).archive ∧
    (applyOps ops initialArchiveState).archive.length ≤ 500 ∧
    (applyOps ops initialArchiveState).archive.Pairwise descTS ∧
    (∀ (st : ArchiveState) (p : SaveParams) (u : String) (t : Int),
      (applyOp st (.save p u t)).archive
        = ((saveAsset st p u t).1 :: st.archive).take 500) := by
  have key := archive_inv_step ops initialArchiveState hmono
    (by simp [initialArchiveState]) (by simp [initialArchiveState])
    (by intro a ha; simp [initialArchiveState] at ha)
  exact ⟨rfl, key.1, key.2, fun st p u t => rfl⟩

def demoOps : List ArchiveOp :=
  [.save demoParams "a" 1, .save demoParams "b" 2, .del "a"]

theorem archive_retention_order_witness :
    listAll (applyOps demoOps initialArchiveState)
        = (applyOps demoOps initialArchiveState).archive ∧
    (applyOps demoOps initialArchiveState).archive.length ≤ 500 ∧
    (applyOps demoOps initialArchiveState).archive.Pairwise descTS ∧
    (∀ (st : ArchiveState) (p : SaveParams) (u : String) (t : Int),
      (applyOp st (.save p u t)).archive
        = ((saveAsset st p u t).1 :: st.archive).take 500) :=
  archive_retention_order demoOps (by decide)

/-! ## Round-trip well-formedness and supporting lemmas -/

/-- A timestamp in the canonical internal `HH:MM:SS.mmm` shape (two
digits, colon, two digits, colon, two digits, dot, three digits). -/
def validTSB (s : String) : Bool :=
  match s.toList with
  | [a, b, c1, c, d, c2, e, f, s9, g, h, i] =>
    isDigitChar a && isDigitChar b && (c1 == ':') && isDigitChar c && isDigitChar d &&
    (c2 == ':') && isDigitChar e && isDigitChar f && (s9 == '.') && isDigitChar g &&
    isDigitChar h && isDigitChar i
  | _ => false

/-- The conditions under which one segment survives the encode/decode
round trip exactly (motivated by the counterexample: a colon inside a
speakerless text invents a speaker; trimming and line structure require
trim-stable, newline-free text; a rendered speaker must be non-empty,
bracket-free and is only rendered when `includeSpeakers` is set). -/
def WellFormedSeg (flag : Bool) (s : TranscriptionSegment) : Prop :=
  validTSB s.startTime = true ∧ validTSB s.endTime = true ∧
  s.text.toList ≠ [] ∧ trimList s.text.toList = s.text.toList ∧ '\n' ∉ s.text.toList ∧
  (match s.speaker, flag with
   | some sp, true =>
     sp.toList ≠ [] ∧ trimList sp.toList = sp.toList ∧ '\n' ∉ sp.toList ∧ ']' ∉ sp.toList
   | some _, false => False
   | none, _ => ':' ∉ s.text.toList)

theorem digit_char_ne {c : Char} (h : isDigitChar c = true) (x : Char)
    (hx : isDigitChar x = false) : c ≠ x := by
  intro he
  rw [he, hx] at h
  exact Bool.noConfusion h

theorem digit_not_ws {c : Char} (h : isDigitChar c = true) : isJsWs c = false := by
  simp only [isDigitChar, Bool.or_eq_true, decide_eq_true_eq] at h
  rcases h with ((((((((rfl | rfl) | rfl) | rfl) | rfl) | rfl) | rfl) | rfl) | rfl) | rfl <;> rfl

theorem validTSB_shape {s : String} (h : validTSB s = true) :
    ∃ a b c d e f g h9 i,
      s.toList = [a, b, ':', c, d, ':', e, f, '.', g, h9, i] ∧
      isDigitChar a = true ∧ isDigitChar b = true ∧ isDigitChar c = true ∧
      isDigitChar d = true ∧ isDigitChar e = true ∧ isDigitChar f = true ∧
      isDigitChar g = true ∧ isDigitChar h9 = true ∧ isDigitChar i = true := by
  unfold validTSB at h
  split at h
  case _ a b c1 c d c2 e f s9 g h9 i heq =>
    simp only [Bool.and_eq_true, beq_iff_eq] at h
    obtain ⟨⟨⟨⟨⟨⟨⟨⟨⟨⟨⟨ha, hb⟩, hc1⟩, hc⟩, hd⟩, hc2⟩, he⟩, hf⟩, hs9⟩, hg⟩, hh⟩, hi⟩ := h
    subst hc1; subst hc2; subst hs9
    exact ⟨a, b, c, d, e, f, g, h9, i, heq, ha, hb, hc, hd, he, hf, hg, hh, hi⟩
  case _ => exact Bool.noConfusion h

theorem decCharsGo_digits : ∀ (f n : Nat), ∀ c ∈ decCharsGo f n, isDigitChar c = true := by
  intro f
  induction f with
  | zero => intro n c hc; simp [decCharsGo] at hc
  | succ f ih =>
    intro n c hc
    unfold decCharsGo at hc
    by_cases hn : n < 10
    · rw [if_pos hn] at hc
      rw [List.mem_singleton] at hc
      subst hc
      unfold digitChar10
      split <;> rfl
    · rw [if_neg hn] at hc
      rcases List.mem_append.mp hc with h | h
      · exact ih _ c h
      · rw [List.mem_singleton] at h
        subst h
        unfold digitChar10
        split <;> rfl

theorem decChars_digits (n : Nat) : ∀ c ∈ decChars n, isDigitChar c = true :=
  decCharsGo_digits (n + 1) n

theorem decChars_ne_nil (n : Nat) : decChars n ≠ [] := by
  unfold decChars decCharsGo
  by_cases hn : n < 10
  · rw [if_pos hn]; simp
  · rw [if_neg hn]; simp

theorem not_blank_of_head {l : List Char} {x : Char} {res : List Char}
    (he : l = x :: res) (hx : isJsWs x = false) : ¬(isBlankLine l = true) := by
  subst he
  unfold isBlankLine
  simp [hx]

theorem trim_stable_of_all_not_ws {l : List Char} (h : ∀ c ∈ l, isJsWs c = false) :
    trimList l = l := by
  apply trimList_eq_self
  · intro x hx
    exact h x (List.mem_of_mem_head? hx)
  · intro x hx
    exact h x (List.mem_of_mem_getLast? hx)

theorem hasArrow_false_of_no_dash {l : List Char} (h : ∀ c ∈ l, c ≠ '-') :
    hasArrow l = false := by
  induction l with
  | nil => rfl
  | cons c rest ih =>
    unfold hasArrow
    have h1 : (c == '-') = false := by
      simp only [beq_eq_false_iff_ne, ne_eq]
      exact h c (List.mem_cons_self _ _)
    rw [h1]
    simp only [Bool.false_and, Bool.false_or]
    exact ih (fun x hx => h x (List.mem_cons_of_mem _ hx))

theorem hasArrow_append_arrow (u v : List Char) :
    hasArrow (u ++ '-' :: '-' :: '>' :: v) = true := by
  induction u with
  | nil =>
    unfold hasArrow
    simp [List.isPrefixOf]
  | cons c u ih =>
    unfold hasArrow
    rw [List.cons_append]
    simp only [ih, Bool.or_true]

theorem splitOnChar_no_sep {c : Char} : ∀ {l : List Char}, c ∉ l → splitOnChar c l = [l] := by
  intro l
  induction l with
  | nil => intro _; rfl
  | cons x xs ih =>
    intro h
    unfold splitOnChar
    rw [if_neg (by intro he; exact h (he ▸ List.mem_cons_self _ _))]
    rw [ih (fun hm => h (List.mem_cons_of_mem _ hm))]

theorem splitOnChar_append {c : Char} {a : List Char} (b : List Char) (ha : c ∉ a) :
    splitOnChar c (a ++ c :: b) = a :: splitOnChar c b := by
  induction a with
  | nil =>
    show splitOnChar c (c :: b) = [] :: splitOnChar c b
    rw [splitOnChar, if_pos rfl]
  | cons x xs ih =>
    have hx : x ≠ c := fun he => ha (he ▸ List.mem_cons_self _ _)
    show splitOnChar c (x :: (xs ++ c :: b)) = (x :: xs) :: splitOnChar c b
    rw [splitOnChar, if_neg hx, ih (fun hm => ha (List.mem_cons_of_mem _ hm))]

theorem joinSep_cons {c : Char} {l : List Char} {ls : List (List Char)} (h : ls ≠ []) :
    joinSep c (l :: ls) = l ++ c :: joinSep c ls := by
  cases ls with
  | nil => exact absurd rfl h
  | cons l2 ls2 => rfl

theorem splitOnChar_joinSep {c : Char} :
    ∀ {L : List (List Char)}, L ≠ [] → (∀ l ∈ L, c ∉ l) →
      splitOnChar c (joinSep c L) = L := by
  intro L
  induction L with
  | nil => intro h _; exact absurd rfl h
  | cons l ls ih =>
    intro _ hmem
    cases ls with
    | nil =>
      show splitOnChar c (joinSep c [l]) = [l]
      exact splitOnChar_no_sep (hmem l (List.mem_cons_self _ _))
    | cons l2 ls2 =>
      rw [joinSep_cons (by simp), splitOnChar_append _ (hmem l (List.mem_cons_self _ _)),
        ih (by simp) (fun x hx => hmem x (List.mem_cons_of_mem _ hx))]

theorem joinSep_append_nil_line {c : Char} :
    ∀ {L : List (List Char)}, L ≠ [] → joinSep c (L ++ [[]]) = joinSep c L ++ [c] := by
  intro L
  induction L with
  | nil => intro h; exact absurd rfl h
  | cons l ls ih =>
    intro _
    cases ls with
    | nil => rfl
    | cons l2 ls2 =>
      rw [List.cons_append, joinSep_cons (by simp), joinSep_cons (by simp), ih (by simp)]
      simp

theorem joinSep_head? {c : Char} {l : List Char} {ls : List (List Char)} (h : l ≠ []) :
    (joinSep c (l :: ls)).head? = l.head? := by
  cases ls with
  | nil => rfl
  | cons l2 ls2 =>
    rw [joinSep_cons (by simp)]
    exact List.head?_append_of_ne_nil _ h

theorem getLast?_append_of_ne_nil {α : Type} (l1 : List α) {l2 : List α} (h : l2 ≠ []) :
    (l1 ++ l2).getLast? = l2.getLast? := by
  induction l1 with
  | nil => rfl
  | cons x xs ih =>
    rw [List.cons_append, List.getLast?_cons, ih]
    cases l2 with
    | nil => exact absurd rfl h
    | cons y ys => simp [List.getLast?_cons]

theorem joinSep_getLast?_cons {c ch : Char} {l : List Char} {ls : List (List Char)}
    (h : (joinSep c ls).getLast? = some ch) :
    (joinSep c (l :: ls)).getLast? = some ch := by
  cases ls with
  | nil => simp [joinSep] at h
  | cons l2 ls2 =>
    rw [joinSep_cons (by simp)]
    rw [getLast?_append_of_ne_nil _ (by simp)]
    rw [List.getLast?_cons]
    rw [h]
    have : joinSep c (l2 :: ls2) ≠ [] := by
      intro he
      rw [he] at h
      exact Option.noConfusion h
    simp [this]

theorem comma_ts_chars {a b c d e f g h9 i : Char}
    (ha : isDigitChar a = true) (hb : isDigitChar b = true) (hc : isDigitChar c = true)
    (hd : isDigitChar d = true) (he : isDigitChar e = true) (hf : isDigitChar f = true)
    (hg : isDigitChar g = true) (hh : isDigitChar h9 = true) (hi : isDigitChar i = true) :
    ∀ x ∈ [a, b, ':', c, d, ':', e, f, ',', g, h9, i],
      isJsWs x = false ∧ x ≠ '\n' ∧ x ≠ '-' := by
  intro x hx
  simp only [List.mem_cons, List.not_mem_nil, or_false] at hx
  rcases hx with rfl | rfl | rfl | rfl | rfl | rfl | rfl | rfl | rfl | rfl | rfl | rfl
  · exact ⟨digit_not_ws ha, digit_char_ne ha '\n' rfl, digit_char_ne ha '-' rfl⟩
  · exact ⟨digit_not_ws hb, digit_char_ne hb '\n' rfl, digit_char_ne hb '-' rfl⟩
  · exact ⟨rfl, by decide, by decide⟩
  · exact ⟨digit_not_ws hc, digit_char_ne hc '\n' rfl, digit_char_ne hc '-' rfl⟩
  · exact ⟨digit_not_ws hd, digit_char_ne hd '\n' rfl, digit_char_ne hd '-' rfl⟩
  · exact ⟨rfl, by decide, by decide⟩
  · exact ⟨digit_not_ws he, digit_char_ne he '\n' rfl, digit_char_ne he '-' rfl⟩
  · exact ⟨digit_not_ws hf, digit_char_ne hf '\n' rfl, digit_char_ne hf '-' rfl⟩
  · exact ⟨rfl, by decide, by decide⟩
  · exact ⟨digit_not_ws hg, digit_char_ne hg '\n' rfl, digit_char_ne hg '-' rfl⟩
  · exact ⟨digit_not_ws hh, digit_char_ne hh '\n' rfl, digit_char_ne hh '-' rfl⟩
  · exact ⟨digit_not_ws hi, digit_char_ne hi '\n' rfl, digit_char_ne hi '-' rfl⟩

theorem tsAt_comma {a b c d e f g h9 i : Char} (rest : List Char)
    (ha : isDigitChar a = true) (hb : isDigitChar b = true) (hc : isDigitChar c = true)
    (hd : isDigitChar d = true) (he : isDigitChar e = true) (hf : isDigitChar f = true)
    (hg : isDigitChar g = true) (hh : isDigitChar h9 = true) (hi : isDigitChar i = true) :
    tsAt (a :: b :: ':' :: c :: d :: ':' :: e :: f :: ',' :: g :: h9 :: i :: rest)
      = some ([a, b, ':', c, d, ':', e, f, ',', g, h9, i], rest) := by
  simp [tsAt, ha, hb, hc, hd, he, hf, hg, hh, hi]

theorem replace_dot_comma {ts : String} (h : validTSB ts = true) :
    ∃ a b c d e f g h9 i,
      ts.toList = [a, b, ':', c, d, ':', e, f, '.', g, h9, i] ∧
      replaceFirstChar '.' ',' ts.toList = [a, b, ':', c, d, ':', e, f, ',', g, h9, i] ∧
      replaceFirstChar ',' '.' [a, b, ':', c, d, ':', e, f, ',', g, h9, i] = ts.toList ∧
      isDigitChar a = true ∧ isDigitChar b = true ∧ isDigitChar c = true ∧
      isDigitChar d = true ∧ isDigitChar e = true ∧ isDigitChar f = true ∧
      isDigitChar g = true ∧ isDigitChar h9 = true ∧ isDigitChar i = true := by
  obtain ⟨a, b, c, d, e, f, g, h9, i, hsh, ha, hb, hc, hd, he, hf, hg, hh, hi⟩ :=
    validTSB_shape h
  refine ⟨a, b, c, d, e, f, g, h9, i, hsh, ?_, ?_, ha, hb, hc, hd, he, hf, hg, hh, hi⟩
  · rw [hsh]
    simp [replaceFirstChar, digit_char_ne ha '.' rfl, digit_char_ne hb '.' rfl,
      digit_char_ne hc '.' rfl, digit_char_ne hd '.' rfl, digit_char_ne he '.' rfl,
      digit_char_ne hf '.' rfl, (by decide : (':' : Char) ≠ '.')]
  · rw [hsh]
    simp [replaceFirstChar, digit_char_ne ha ',' rfl, digit_char_ne hb ',' rfl,
      digit_char_ne hc ',' rfl, digit_char_ne hd ',' rfl, digit_char_ne he ',' rfl,
      digit_char_ne hf ',' rfl, (by decide : (':' : Char) ≠ ',')]

theorem timeline_props (s : TranscriptionSegment) (h1 : validTSB s.startTime = true)
    (h2 : validTSB s.endTime = true) :
    findTimePair (timeLineChars s)
      = some (replaceFirstChar '.' ',' s.startTime.toList,
          replaceFirstChar '.' ',' s.endTime.toList) ∧
    replaceFirstChar ',' '.' (replaceFirstChar '.' ',' s.startTime.toList)
        = s.startTime.toList ∧
    replaceFirstChar ',' '.' (replaceFirstChar '.' ',' s.endTime.toList) = s.endTime.toList ∧
    hasArrow (timeLineChars s) = true ∧
    '\n' ∉ timeLineChars s ∧
    ¬(isBlankLine (timeLineChars s) = true) ∧
    trimList (timeLineChars s) = timeLineChars s := by
  obtain ⟨a, b, c, d, e, f, g, h9, i, hsh1, hr1, hb1, ha, hb, hc, hd, he, hf, hg, hh, hi⟩ :=
    replace_dot_comma h1
  obtain ⟨a2, b2, c2, d2, e2, f2, g2, h92, i2, hsh2, hr2, hb2,
    ha2, hb2d, hc2, hd2, he2, hf2, hg2, hh2, hi2⟩ := replace_dot_comma h2
  have hchars1 := comma_ts_chars ha hb hc hd he hf hg hh hi
  have hchars2 := comma_ts_chars ha2 hb2d hc2 hd2 he2 hf2 hg2 hh2 hi2
  have htl : timeLineChars s
      = [a, b, ':', c, d, ':', e, f, ',', g, h9, i] ++ [' ', '-', '-', '>', ' ']
        ++ [a2, b2, ':', c2, d2, ':', e2, f2, ',', g2, h92, i2] := by
    unfold timeLineChars
    rw [hr1, hr2]
  refine ⟨?_, ?_, ?_, ?_, ?_, ?_, ?_⟩
  · rw [htl, hr1, hr2]
    have hts1 := tsAt_comma
      (' ' :: '-' :: '-' :: '>' :: ' ' :: [a2, b2, ':', c2, d2, ':', e2, f2, ',', g2, h92, i2])
      ha hb hc hd he hf hg hh hi
    have hts2 := tsAt_comma ([] : List Char) ha2 hb2d hc2 hd2 he2 hf2 hg2 hh2 hi2
    show findTimePair (a :: b :: ':' :: c :: d :: ':' :: e :: f :: ',' :: g :: h9 :: i ::
      (' ' :: '-' :: '-' :: '>' :: ' ' ::
        [a2, b2, ':', c2, d2, ':', e2, f2, ',', g2, h92, i2])) = _
    rw [findTimePair]
    unfold tryTimeAt
    simp only [hts1, hts2]
  · rw [hr1]; exact hb1
  · rw [hr2]; exact hb2
  · rw [htl]
    have : [a, b, ':', c, d, ':', e, f, ',', g, h9, i] ++ [' ', '-', '-', '>', ' ']
        ++ [a2, b2, ':', c2, d2, ':', e2, f2, ',', g2, h92, i2]
        = ([a, b, ':', c, d, ':', e, f, ',', g, h9, i] ++ [' '])
          ++ '-' :: '-' :: '>' :: (' ' :: [a2, b2, ':', c2, d2, ':', e2, f2, ',', g2, h92, i2]) := by
      simp
    rw [this]
    exact hasArrow_append_arrow _ _
  · rw [htl]
    intro hmem
    rcases List.mem_append.mp hmem with hmem2 | hmem2
    · rcases List.mem_append.mp hmem2 with hmem3 | hmem3
      · exact absurd rfl (hchars1 _ hmem3).2.1
      · simp at hmem3
    · exact absurd rfl (hchars2 _ hmem2).2.1
  · have he2 : timeLineChars s
        = a :: ([b, ':', c, d, ':', e, f, ',', g, h9, i] ++ [' ', '-', '-', '>', ' ']
          ++ [a2, b2, ':', c2, d2, ':', e2, f2, ',', g2, h92, i2]) := by
      rw [htl]; rfl
    exact not_blank_of_head he2 ((hchars1 a (by simp)).1)
  · apply trimList_eq_self
    · intro x hx
      rw [htl] at hx
      simp only [List.cons_append, List.head?_cons, Option.mem_def, Option.some.injEq] at hx
      subst hx
      exact (hchars1 a (by simp)).1
    · intro x hx
      rw [htl] at hx
      rw [getLast?_append_of_ne_nil _ (by simp)] at hx
      have : [a2, b2, ':', c2, d2, ':', e2, f2, ',', g2, h92, i2].getLast? = some i2 := rfl
      rw [this] at hx
      simp only [Option.mem_def, Option.some.injEq] at hx
      subst hx
      exact (hchars2 i2 (by simp)).1

theorem string_mk_toList (s : String) : String.mk s.toList = s := by
  cases s
  rfl

theorem trim_stable_head? {l : List Char} (h : trimList l = l) :
    ∀ x ∈ l.head?, isJsWs x = false := by
  intro x hx
  cases hl : l with
  | nil => rw [hl] at hx; simp at hx
  | cons a as =>
    rw [hl] at hx
    simp only [List.head?_cons, Option.mem_def, Option.some.injEq] at hx
    subst hx
    exact trimList_head_not_ws (by rw [h, hl])

theorem trim_stable_getLast? {l : List Char} (h : trimList l = l) :
    ∀ x ∈ l.getLast?, isJsWs x = false := by
  intro x hx
  rcases List.eq_nil_or_concat l with rfl | ⟨L, b, hb⟩
  · simp at hx
  · rw [hb, List.concat_eq_append, List.getLast?_concat] at hx
    simp only [Option.mem_def, Option.some.injEq] at hx
    subst hx
    exact @trimList_getLast_not_ws l L b (by rw [h, hb, List.concat_eq_append])

theorem splitAtFirstChar_none {c : Char} : ∀ {l : List Char}, c ∉ l →
    splitAtFirstChar c l = none := by
  intro l
  induction l with
  | nil => intro _; rfl
  | cons x xs ih =>
    intro h
    unfold splitAtFirstChar
    rw [if_neg (by intro he; exact h (he ▸ List.mem_cons_self _ _)),
      ih (fun hm => h (List.mem_cons_of_mem _ hm))]
    rfl

theorem splitAtFirstChar_prepend {c : Char} {a : List Char} (b : List Char) (ha : c ∉ a) :
    splitAtFirstChar c (a ++ c :: b) = some (a, b) := by
  induction a with
  | nil =>
    show splitAtFirstChar c (c :: b) = some ([], b)
    unfold splitAtFirstChar
    rw [if_pos rfl]
  | cons x xs ih =>
    have hx : x ≠ c := fun he => ha (he ▸ List.mem_cons_self _ _)
    show splitAtFirstChar c (x :: (xs ++ c :: b)) = some (x :: xs, b)
    unfold splitAtFirstChar
    rw [if_neg hx, ih (fun hm => ha (List.mem_cons_of_mem _ hm))]
    rfl

theorem splitAtFirstChar_sound {c : Char} :
    ∀ {l a b : List Char}, splitAtFirstChar c l = some (a, b) → l = a ++ c :: b := by
  intro l
  induction l with
  | nil => intro a b h; exact Option.noConfusion h
  | cons x xs ih =>
    intro a b h
    unfold splitAtFirstChar at h
    by_cases hx : x = c
    · rw [if_pos hx] at h
      cases h
      rw [hx]
      rfl
    · rw [if_neg hx, Option.map_eq_some'] at h
      obtain ⟨p, hp, hpe⟩ := h
      cases hpe
      rw [List.cons_append, ← ih hp]

theorem bareMatch_none {raw : List Char} (h : ':' ∉ raw) : bareMatch raw = none := by
  unfold bareMatch
  rw [splitAtFirstChar_none h]

theorem bracketMatch_none {raw : List Char} (h : ':' ∉ raw) : bracketMatch raw = none := by
  cases raw with
  | nil => rfl
  | cons x r =>
    by_cases hx : x = '['
    · subst hx
      have hred : bracketMatch ('[' :: r) =
          (match splitAtFirstChar ']' r with
          | some (grp, after) =>
            if grp.isEmpty then none
            else
              match after with
              | ':' :: r2 => some (trimList grp, trimList (r2.dropWhile isJsWs))
              | _ => none
          | none => none) := rfl
      rw [hred]
      cases hsp : splitAtFirstChar ']' r with
      | none => rfl
      | some p =>
        obtain ⟨grp, after⟩ := p
        show (if grp.isEmpty then none
          else match after with
            | ':' :: r2 => some (trimList grp, trimList (r2.dropWhile isJsWs))
            | _ => none) = none
        by_cases hg : grp.isEmpty
        · rw [if_pos hg]
        · rw [if_neg hg]
          split
          · exfalso
            apply h
            have hr := splitAtFirstChar_sound hsp
            rw [List.mem_cons]
            right
            rw [hr]
            simp
          · rfl
    · unfold bracketMatch
      split
      · rename_i rest heq
        injection heq with h1 h2
        exact absurd h1 hx
      · rfl

theorem speakerSplit_no_colon {raw : List Char} (h : ':' ∉ raw) : speakerSplit raw = none := by
  unfold speakerSplit
  rw [bracketMatch_none h, bareMatch_none h]

theorem bracketMatch_speaker (sp text : List Char)
    (hspne : sp ≠ []) (hsptrim : trimList sp = sp) (hspbr : ']' ∉ sp)
    (httrim : trimList text = text) :
    bracketMatch ('[' :: (sp ++ ']' :: ':' :: ' ' :: text)) = some (sp, text) := by
  have hred : bracketMatch ('[' :: (sp ++ ']' :: ':' :: ' ' :: text)) =
      (match splitAtFirstChar ']' (sp ++ ']' :: ':' :: ' ' :: text) with
      | some (grp, after) =>
        if grp.isEmpty then none
        else
          match after with
          | ':' :: r2 => some (trimList grp, trimList (r2.dropWhile isJsWs))
          | _ => none
      | none => none) := rfl
  rw [hred, splitAtFirstChar_prepend _ hspbr]
  show (if sp.isEmpty then none
    else some (trimList sp, trimList ((' ' :: text).dropWhile isJsWs))) = _
  rw [if_neg (by simp [hspne])]
  have hdw : (' ' :: text).dropWhile isJsWs = text := by
    rw [List.dropWhile_cons, if_pos (by rfl)]
    exact trimLeft_eq_self (trim_stable_head? httrim)
  rw [hdw, hsptrim, httrim]

theorem textLine_cases (flag : Bool) (s : TranscriptionSegment) (hwf : WellFormedSeg flag s) :
    (∃ sp : String, s.speaker = some sp ∧ flag = true ∧
      textLineChars flag s = '[' :: (sp.toList ++ ']' :: ':' :: ' ' :: s.text.toList) ∧
      sp.toList ≠ [] ∧ trimList sp.toList = sp.toList ∧ '\n' ∉ sp.toList ∧ ']' ∉ sp.toList) ∨
    (s.speaker = none ∧ textLineChars flag s = s.text.toList ∧ ':' ∉ s.text.toList) := by
  obtain ⟨_, _, htne, hts, hnl, hsp⟩ := hwf
  cases hspk : s.speaker with
  | some sp =>
    rw [hspk] at hsp
    cases flag with
    | true =>
      have hsp2 : sp.toList ≠ [] ∧ trimList sp.toList = sp.toList ∧
          '\n' ∉ sp.toList ∧ ']' ∉ sp.toList := hsp
      left
      refine ⟨sp, rfl, rfl, ?_, hsp2.1, hsp2.2.1, hsp2.2.2.1, hsp2.2.2.2⟩
      unfold textLineChars segSpeakerTruthy segSpeakerStr
      rw [hspk]
      rw [if_pos (by simp; exact hsp2.1)]
      simp
    | false => exact (hsp : False).elim
  | none =>
    right
    rw [hspk] at hsp
    have hsp2 : ':' ∉ s.text.toList := hsp
    refine ⟨rfl, ?_, hsp2⟩
    unfold textLineChars segSpeakerTruthy
    rw [hspk]
    simp

theorem textLine_props (flag : Bool) (s : TranscriptionSegment) (hwf : WellFormedSeg flag s) :
    textLineChars flag s ≠ [] ∧
    trimList (textLineChars flag s) = textLineChars flag s ∧
    ¬(isBlankLine (textLineChars flag s) = true) ∧
    '\n' ∉ textLineChars flag s ∧
    (textLineChars flag s).getLast? = s.text.toList.getLast? := by
  have hparts := hwf
  obtain ⟨_, _, htne, hts, hnl, _⟩ := hparts
  rcases textLine_cases flag s hwf with ⟨sp, _, _, hx, hspne, hsptrim, hspnl, _⟩ | ⟨_, hx, _⟩
  · have hshape : textLineChars flag s = ('[' :: sp.toList ++ [']', ':', ' ']) ++ s.text.toList := by
      rw [hx]
      simp
    have hlast : (textLineChars flag s).getLast? = s.text.toList.getLast? := by
      rw [hshape]
      exact getLast?_append_of_ne_nil _ htne
    refine ⟨by rw [hx]; simp, ?_, ?_, ?_, hlast⟩
    · apply trimList_eq_self
      · intro y hy
        rw [hx] at hy
        simp only [List.cons_append, List.head?_cons, Option.mem_def, Option.some.injEq] at hy
        subst hy
        rfl
      · intro y hy
        rw [hlast] at hy
        exact trim_stable_getLast? hts y hy
    · exact not_blank_of_head hx rfl
    · rw [hx]
      intro hmem
      rcases List.mem_cons.mp hmem with heq | hmem2
      · exact absurd heq.symm (by decide)
      · rcases List.mem_append.mp hmem2 with hmem3 | hmem3
        · exact hspnl hmem3
        · rcases List.mem_cons.mp hmem3 with heq | hmem4
          · exact absurd heq.symm (by decide)
          · rcases List.mem_cons.mp hmem4 with heq | hmem5
            · exact absurd heq.symm (by decide)
            · rcases List.mem_cons.mp hmem5 with heq | hmem6
              · exact absurd heq.symm (by decide)
              · exact hnl hmem6
  · rw [hx]
    refine ⟨htne, hts, ?_, hnl, rfl⟩
    cases ht : s.text.toList with
    | nil => exact absurd ht htne
    | cons y ys =>
      exact not_blank_of_head rfl (trim_stable_head? hts y (by rw [ht]; rfl))

theorem parseBlock_block (flag : Bool) (n : Nat) (s : TranscriptionSegment)
    (hwf : WellFormedSeg flag s) :
    parseBlock [decChars n, timeLineChars s, textLineChars flag s] = some s := by
  obtain ⟨hfp, hrb1, hrb2, harr, _, _, httrim⟩ := timeline_props s hwf.1 hwf.2.1
  obtain ⟨hxne, hxtrim, _, _, _⟩ := textLine_props flag s hwf
  have hts : trimList s.text.toList = s.text.toList := hwf.2.2.2.1
  have hdtrim : trimList (decChars n) = decChars n :=
    trim_stable_of_all_not_ws (fun c hc => digit_not_ws (decChars_digits n c hc))
  have hdarrow : hasArrow (decChars n) = false :=
    hasArrow_false_of_no_dash (fun c hc => digit_char_ne (decChars_digits n c hc) '-' rfl)
  have hmap : [decChars n, timeLineChars s, textLineChars flag s].map trimList
      = [decChars n, timeLineChars s, textLineChars flag s] := by
    simp [hdtrim, httrim, hxtrim]
  have hfind : findTimeLine [decChars n, timeLineChars s, textLineChars flag s]
      = some (1, timeLineChars s) := by
    rw [findTimeLine, hdarrow]
    rw [if_neg (by simp)]
    rw [findTimeLine, harr]
    rw [if_pos rfl]
    rfl
  simp only [parseBlock, hmap]
  rw [if_pos (by simp)]
  simp only [hfind, hfp]
  simp only [List.drop_succ_cons, List.drop_zero]
  have hjoin : joinSep ' ' [textLineChars flag s] = textLineChars flag s := rfl
  rw [hjoin, hxtrim]
  rcases textLine_cases flag s hwf with ⟨sp, hspk, _, hx, hspne, hsptrim, _, hspbr⟩ |
    ⟨hnone, hx, hcol⟩
  · have hsplit : speakerSplit (textLineChars flag s) = some (sp.toList, s.text.toList) := by
      unfold speakerSplit
      rw [hx, bracketMatch_speaker sp.toList s.text.toList hspne hsptrim hspbr hts]
    rw [hsplit]
    show some
      { startTime := String.mk (replaceFirstChar ',' '.'
          (replaceFirstChar '.' ',' s.startTime.toList)),
        endTime := String.mk (replaceFirstChar ',' '.'
          (replaceFirstChar '.' ',' s.endTime.toList)),
        text := String.mk s.text.toList,
        speaker := some (String.mk sp.toList) } = some s
    rw [hrb1, hrb2, string_mk_toList, string_mk_toList, string_mk_toList, string_mk_toList,
      ← hspk]
  · have hsplit : speakerSplit (textLineChars flag s) = none := by
      rw [hx]
      exact speakerSplit_no_colon hcol
    rw [hsplit]
    show some
      { startTime := String.mk (replaceFirstChar ',' '.'
          (replaceFirstChar '.' ',' s.startTime.toList)),
        endTime := String.mk (replaceFirstChar ',' '.'
          (replaceFirstChar '.' ',' s.endTime.toList)),
        text := String.mk (textLineChars flag s),
        speaker := none } = some s
    rw [hrb1, hrb2, hx, string_mk_toList, string_mk_toList, string_mk_toList, ← hnone]

/-- The line list of the generated SRT text for segments numbered from
`k + 1`: each segment contributes its index, time and text lines, and a
blank separator line stands between consecutive blocks (the trailing
newline of each block plus the join newline). -/
def srtLines (flag : Bool) : Nat → List TranscriptionSegment → List (List Char)
  | _, [] => []
  | k, s :: rest =>
    decChars (k + 1) :: timeLineChars s :: textLineChars flag s ::
      (match rest with
       | [] => []
       | s2 :: rest2 => [] :: srtLines flag (k + 1) (s2 :: rest2))

theorem srtLines_single (flag : Bool) (k : Nat) (s : TranscriptionSegment) :
    srtLines flag k [s] = [decChars (k + 1), timeLineChars s, textLineChars flag s] := rfl

theorem srtLines_cons2 (flag : Bool) (k : Nat) (s s2 : TranscriptionSegment)
    (rest2 : List TranscriptionSegment) :
    srtLines flag k (s :: s2 :: rest2)
      = decChars (k + 1) :: timeLineChars s :: textLineChars flag s ::
          [] :: srtLines flag (k + 1) (s2 :: rest2) := rfl

theorem srtLines_ne_nil (flag : Bool) (k : Nat) (s : TranscriptionSegment)
    (rest : List TranscriptionSegment) : srtLines flag k (s :: rest) ≠ [] := by
  cases rest with
  | nil => simp [srtLines_single]
  | cons s2 rest2 => simp [srtLines_cons2]

theorem bool_eq_false {b : Bool} (h : ¬(b = true)) : b = false := by
  cases b
  · rfl
  · exact absurd rfl h

theorem decChars_not_blank (n : Nat) : isBlankLine (decChars n) = false := by
  cases hd : decChars n with
  | nil => exact absurd hd (decChars_ne_nil n)
  | cons a as =>
    have ha : isDigitChar a = true :=
      decChars_digits n a (by rw [hd]; exact List.mem_cons_self _ _)
    unfold isBlankLine
    simp [digit_not_ws ha]

theorem splitOnBlank_group {d t x : List Char} {tail : List (List Char)}
    (hd : isBlankLine d = false) (ht : isBlankLine t = false)
    (hx : isBlankLine x = false) :
    splitOnBlank (d :: t :: x :: [] :: tail) = (d :: t :: [x]) :: splitOnBlank tail := by
  have h1 : splitOnBlank ([] :: tail) = [] :: splitOnBlank tail := rfl
  have h2 : splitOnBlank (x :: [] :: tail) = [x] :: splitOnBlank tail := by
    rw [splitOnBlank, if_neg (by simp [hx]), h1]
  have h3 : splitOnBlank (t :: x :: [] :: tail) = (t :: [x]) :: splitOnBlank tail := by
    rw [splitOnBlank, if_neg (by simp [ht]), h2]
  rw [splitOnBlank, if_neg (by simp [hd]), h3]

theorem splitOnBlank_single {d t x : List Char}
    (hd : isBlankLine d = false) (ht : isBlankLine t = false)
    (hx : isBlankLine x = false) :
    splitOnBlank [d, t, x] = [[d, t, x]] := by
  have h1 : splitOnBlank [x] = [[x]] := by
    rw [splitOnBlank, if_neg (by simp [hx])]
    rfl
  have h2 : splitOnBlank [t, x] = [[t, x]] := by
    rw [splitOnBlank, if_neg (by simp [ht]), h1]
  rw [splitOnBlank, if_neg (by simp [hd]), h2]

theorem srtLines_no_newline (flag : Bool) :
    ∀ (segs : List TranscriptionSegment), (∀ s ∈ segs, WellFormedSeg flag s) →
      ∀ k, ∀ l ∈ srtLines flag k segs, '\n' ∉ l := by
  intro segs
  induction segs with
  | nil => intro _ k l hl; simp [srtLines] at hl
  | cons s rest ih =>
    intro hwf k l hl
    have hs : WellFormedSeg flag s := hwf s (List.mem_cons_self _ _)
    have hdec : '\n' ∉ decChars (k + 1) := fun hm =>
      digit_char_ne (decChars_digits (k + 1) '\n' hm) '\n' rfl rfl
    have htime : '\n' ∉ timeLineChars s := (timeline_props s hs.1 hs.2.1).2.2.2.2.1
    have htext : '\n' ∉ textLineChars flag s := (textLine_props flag s hs).2.2.2.1
    cases rest with
    | nil =>
      rw [srtLines_single] at hl
      simp only [List.mem_cons] at hl
      rcases hl with rfl | rfl | rfl | h
      · exact hdec
      · exact htime
      · exact htext
      · simp at h
    | cons s2 rest2 =>
      rw [srtLines_cons2] at hl
      simp only [List.mem_cons] at hl
      rcases hl with rfl | rfl | rfl | rfl | h
      · exact hdec
      · exact htime
      · exact htext
      · simp
      · exact ih (fun x hx => hwf x (List.mem_cons_of_mem _ hx)) (k + 1) l h

theorem srtLines_join_getLast (flag : Bool) :
    ∀ (segs : List TranscriptionSegment), (∀ s ∈ segs, WellFormedSeg flag s) →
      segs ≠ [] → ∀ k, ∃ ch,
        (joinSep '\n' (srtLines flag k segs)).getLast? = some ch ∧ isJsWs ch = false := by
  intro segs
  induction segs with
  | nil => intro _ h; exact absurd rfl h
  | cons s rest ih =>
    intro hwf _ k
    have hs : WellFormedSeg flag s := hwf s (List.mem_cons_self _ _)
    obtain ⟨hxne, hxtrim, _, _, _⟩ := textLine_props flag s hs
    cases rest with
    | nil =>
      rw [srtLines_single]
      have hjs : joinSep '\n'
          [decChars (k + 1), timeLineChars s, textLineChars flag s]
          = decChars (k + 1) ++ '\n' :: (timeLineChars s ++ '\n' :: textLineChars flag s) :=
        rfl
      rw [hjs]
      rw [getLast?_append_of_ne_nil _ (by simp)]
      have hsplit2 : ('\n' :: (timeLineChars s ++ '\n' :: textLineChars flag s))
          = ('\n' :: timeLineChars s) ++ ('\n' :: textLineChars flag s) := by simp
      rw [hsplit2, getLast?_append_of_ne_nil _ (by simp)]
      have hsplit3 : ('\n' :: textLineChars flag s) = ['\n'] ++ textLineChars flag s := rfl
      rw [hsplit3, getLast?_append_of_ne_nil _ hxne]
      cases hgl : (textLineChars flag s).getLast? with
      | none => exact absurd (List.getLast?_eq_none_iff.mp hgl) hxne
      | some ch => exact ⟨ch, rfl, trim_stable_getLast? hxtrim ch hgl⟩
    | cons s2 rest2 =>
      obtain ⟨ch, hch, hws⟩ :=
        ih (fun x hx => hwf x (List.mem_cons_of_mem _ hx)) (by simp) (k + 1)
      refine ⟨ch, ?_, hws⟩
      rw [srtLines_cons2]
      exact joinSep_getLast?_cons (joinSep_getLast?_cons (joinSep_getLast?_cons
        (joinSep_getLast?_cons hch)))

theorem gen_eq_srtLines (flag : Bool) :
    ∀ (segs : List TranscriptionSegment), segs ≠ [] → ∀ k,
      joinSep '\n' ((List.enumFrom k segs).map (fun p => blockChars (p.1 + 1) flag p.2))
        = joinSep '\n' (srtLines flag k segs) ++ ['\n'] := by
  intro segs
  induction segs with
  | nil => intro h; exact absurd rfl h
  | cons s rest ih =>
    intro _ k
    cases rest with
    | nil =>
      show joinSep '\n' [blockChars (k + 1) flag s] = _
      rw [srtLines_single]
      show blockChars (k + 1) flag s = _
      have hjs : joinSep '\n'
          [decChars (k + 1), timeLineChars s, textLineChars flag s]
          = decChars (k + 1) ++ '\n' :: (timeLineChars s ++ '\n' :: textLineChars flag s) :=
        rfl
      rw [hjs]
      simp [blockChars, List.append_assoc]
    | cons s2 rest2 =>
      rw [List.enumFrom_cons, List.map_cons,
        joinSep_cons (by simp [List.enumFrom_cons]), ih (by simp) (k + 1),
        srtLines_cons2,
        joinSep_cons (by simp), joinSep_cons (by simp), joinSep_cons (by simp),
        joinSep_cons (srtLines_ne_nil flag (k + 1) s2 rest2)]
      simp [blockChars, List.append_assoc]

theorem parse_srtLines (flag : Bool) :
    ∀ (segs : List TranscriptionSegment), (∀ s ∈ segs, WellFormedSeg flag s) → ∀ k,
      (blocksOf (srtLines flag k segs)).filterMap parseBlock = segs := by
  intro segs
  induction segs with
  | nil => intro _ k; rfl
  | cons s rest ih =>
    intro hwf k
    have hs : WellFormedSeg flag s := hwf s (List.mem_cons_self _ _)
    have hd := decChars_not_blank (k + 1)
    have ht := bool_eq_false (timeline_props s hs.1 hs.2.1).2.2.2.2.2.1
    have hx := bool_eq_false (textLine_props flag s hs).2.2.1
    cases rest with
    | nil =>
      rw [srtLines_single]
      unfold blocksOf
      rw [splitOnBlank_single hd ht hx]
      simp only [List.filter_cons, List.filter_nil]
      rw [if_pos (by simp)]
      rw [List.filterMap_cons, parseBlock_block flag (k + 1) s hs]
      rfl
    | cons s2 rest2 =>
      rw [srtLines_cons2]
      unfold blocksOf
      rw [splitOnBlank_group hd ht hx]
      have hih := ih (fun a ha => hwf a (List.mem_cons_of_mem _ ha)) (k + 1)
      unfold blocksOf at hih
      simp only [List.filter_cons]
      rw [if_pos (by simp)]
      rw [List.filterMap_cons, parseBlock_block flag (k + 1) s hs, hih]

theorem srtLines_join_head (flag : Bool) (k : Nat) (s : TranscriptionSegment)
    (rest : List TranscriptionSegment) :
    (joinSep '\n' (srtLines flag k (s :: rest))).head? = (decChars (k + 1)).head? := by
  cases rest with
  | nil =>
    rw [srtLines_single]
    exact joinSep_head? (decChars_ne_nil (k + 1))
  | cons s2 rest2 =>
    rw [srtLines_cons2]
    exact joinSep_head? (decChars_ne_nil (k + 1))

/-- A segment whose text contains a colon, speakers absent: the
generated text line `Note: hi` re-parses as speaker `Note`, text `hi`. -/
def segColon : TranscriptionSegment :=
  { startTime := "00:00:01.000", endTime := "00:00:03.500",
    text := "Note: hi", speaker := none }

/-- C2, counterexample: a segment with well-formed `HH:MM:SS.mmm`
timestamps and non-empty text whose round trip does not reproduce it —
`parseSRT (generateSRT [segColon] true)` turns the prefix before the
colon into a speaker label, returning text `hi` with speaker `Note`. -/
theorem srt_roundtrip_cex :
    validTSB segColon.startTime = true ∧ validTSB segColon.endTime = true ∧
    segColon.text.toList ≠ [] ∧
    parseSRT (generateSRT [segColon] true)
      = [{ startTime := "00:00:01.000", endTime := "00:00:03.500",
           text := "hi", speaker := some "Note" }] ∧
    parseSRT (generateSRT [segColon] true) ≠ [segColon] := by decide

/-- C2: for every sequence of segments well formed for the chosen
speaker flag (valid `HH:MM:SS.mmm` timestamps; non-empty, trimmed,
newline-free text; when a speaker is present the flag is on and the
speaker label is non-empty, trimmed, newline-free and free of `]`; when
no speaker is present the text contains no colon), decoding the encoding
reproduces the sequence exactly:
`parseSRT (generateSRT segs flag) = segs`. -/
theorem srt_roundtrip_amended (flag : Bool) (segs : List TranscriptionSegment)
    (hwf : ∀ s ∈ segs, WellFormedSeg flag s) :
    parseSRT (generateSRT segs flag) = segs := by
  cases segs with
  | nil => rfl
  | cons s rest =>
    unfold parseSRT generateSRT
    have htl : (String.mk (joinSep '\n'
        ((s :: rest).enum.map (fun p => blockChars (p.1 + 1) flag p.2)))).toList
        = joinSep '\n'
            ((List.enumFrom 0 (s :: rest)).map (fun p => blockChars (p.1 + 1) flag p.2)) :=
      rfl
    rw [htl]
    rw [gen_eq_srtLines flag (s :: rest) (by simp) 0]
    have hne := srtLines_ne_nil flag 0 s rest
    have hnl := srtLines_no_newline flag (s :: rest) hwf 0
    have hhead : ∀ x ∈ (joinSep '\n' (srtLines flag 0 (s :: rest))).head?,
        isJsWs x = false := by
      intro x hx
      rw [srtLines_join_head] at hx
      exact digit_not_ws (decChars_digits 1 x (List.mem_of_mem_head? hx))
    obtain ⟨ch, hch, hchws⟩ := srtLines_join_getLast flag (s :: rest) hwf (by simp) 0
    have hlast : ∀ x ∈ (joinSep '\n' (srtLines flag 0 (s :: rest))).getLast?,
        isJsWs x = false := by
      intro x hx
      rw [hch] at hx
      simp only [Option.mem_def, Option.some.injEq] at hx
      subst hx
      exact hchws
    have hjne : joinSep '\n' (srtLines flag 0 (s :: rest)) ≠ [] := by
      intro h0
      rw [h0] at hch
      simp at hch
    rw [trimList_append_newline hhead hlast hjne]
    rw [splitOnChar_joinSep hne hnl]
    exact parse_srtLines flag (s :: rest) hwf 0

/-- A well-formed speaker-carrying segment for the round-trip witness. -/
def segAlice : TranscriptionSegment :=
  { startTime := "00:00:01.000", endTime := "00:00:03.500",
    text := "Hello there", speaker := some "Alice" }

/-- Witness for C2: the amended round trip applied at the concrete
one-segment list `[segAlice]` with speakers included. -/
theorem srt_roundtrip_amended_witness :
    parseSRT (generateSRT [segAlice] true) = [segAlice] :=
  srt_roundtrip_amended true [segAlice] (by
    intro s hs
    simp only [List.mem_singleton] at hs
    subst hs
    exact ⟨by decide, by decide, by decide, by decide, by decide,
      by decide, by decide, by decide, by decide⟩)
